import Mathlib

/-!
# Verification of the surya reading-order core (`surya/ordering.py`)

Shallow embedding of `get_batch_size`, `rank_elements` and `batch_ordering`
from `surya/ordering.py`, together with proofs and refutations of the frozen
claims about the natural-language specification.

Embedding conventions:
* Python lists become Lean `List`s; Python's stable `sorted(key=...)` becomes
  Mathlib's stable `List.insertionSort` on the key order (any two stable sorts
  by the same key agree, and `insertionSort` is structurally recursive, hence
  kernel-computable).
* Logit scores are embedded as integers (`ℤ`); the sentinel `-1e9` becomes the
  integer constant `NEG_INF`.  None of the verified claims depends on
  floating-point rounding, only on order comparisons.
* The neural model plus processor (the spec's external "Inference Oracle") is
  an opaque function parameter.  Per decoding step it receives the batch
  images, the batch input boxes, and each sample's sequence of fed-back token
  ids (the abstraction of `past_key_values` plus the per-step `last_tokens` /
  `last_token_mask`, the mask entry being determined by whether the fed token
  equals `token_pad_id`), and it returns one logits row per sample.
* Failing `assert` statements and the `ValueError` that `range(0, n, 0)`
  raises become `Except.error`; `batch_ordering` returns
  `Except String (List (OrderResult α))`.
* Box payloads are opaque (`α`): the code never inspects bbox coordinates.
* The source line `for j, in range(logits.shape[0]):` unpacks an `int` and is
  read as iteration of `j` over the sample indices, which is what the loop
  body's uses `logits[j]`, `batch_predictions[j]`, `done[j]` require.
-/

namespace Surya

/-- An input image; the code only ever reads its `.size` (width, height),
which `convert("RGB")` preserves. -/
structure Img where
  width : ℕ
  height : ℕ
deriving DecidableEq

/-- The relevant fields of `surya.settings.settings`. -/
structure Settings where
  ORDER_BATCH_SIZE : Option ℕ
  TORCH_DEVICE_MODEL : String
  ORDER_MAX_BOXES : ℕ
deriving DecidableEq

/-- `get_batch_size` (ordering.py lines 12-20): the configured override, else
4, overridden to 4 on "mps" and to 32 on "cuda". -/
def get_batch_size (s : Settings) : ℕ :=
  match s.ORDER_BATCH_SIZE with
  | some b => b
  | none =>
    if s.TORCH_DEVICE_MODEL = "mps" then
      if s.TORCH_DEVICE_MODEL = "cuda" then 32 else 4
    else
      if s.TORCH_DEVICE_MODEL = "cuda" then 32 else 4

/-- `rank_elements` (ordering.py lines 23-30): stable-sort the enumerated
list by value, then write each sorted position back at the original index. -/
def rank_elements {α : Type} [LinearOrder α] (arr : List α) : List ℕ :=
  let enumerated_and_sorted := List.insertionSort (fun x y => x.2 ≤ y.2) arr.enum
  enumerated_and_sorted.enum.foldl (fun rank p => rank.set p.2.1 p.1)
    (List.replicate arr.length 0)

/-- The integer embedding of the `-1e9` masking sentinel. -/
def NEG_INF : ℤ := -1000000000

/-- `torch.argmax` over one logits row: index of the first occurrence of the
maximum (0 on an empty row, which the pipeline never produces). -/
def argmaxIdx (l : List ℤ) : ℕ :=
  ((l.enum.foldl (fun best p =>
      match best with
      | none => some p
      | some b => if b.2 < p.2 then some p else some b) none).map Prod.fst).getD 0

/-- One Python/torch fancy-index assignment `new_logits[p] = -1e9` with the
usual negative-index wrap-around; indices outside `[-n, n)` (which the
pipeline's predictions never produce) are skipped. -/
def pyMaskOne (acc : List ℤ) (p : ℤ) : List ℤ :=
  if 0 ≤ p then acc.set p.toNat NEG_INF
  else if (-p).toNat ≤ acc.length then acc.set (acc.length - (-p).toNat) NEG_INF
  else acc

/-- Lines 81-82: `new_logits = logits[j].clone(); new_logits[batch_predictions[j]] = -1e9`.
This masked row is computed by the source but never read again: line 83
arg-maxes the unmasked `logits[j]`. -/
def maskedLogits (preds : List ℤ) (lg : List ℤ) : List ℤ :=
  preds.foldl pyMaskOne lg

/-- Per-sample decode state: `batch_predictions[j]`, the token ids fed back
to the model for this sample so far, and `done[j]`. -/
structure SampleSt where
  preds : List ℤ
  fed : List ℕ
  done : Bool
deriving DecidableEq

/-- The initial per-sample state: empty predictions, nothing fed, not done. -/
def initState : SampleSt := SampleSt.mk [] [] false

/-- Lines 80-91, body for one sample `j`: `pred` is the arg-max of the
*unmasked* row `logits[j]`; on `pred == token_pad_id` the sample is marked
done (and `last_token_mask` gets `[0]`), otherwise
`pred - processor.box_size["height"]` is appended to its predictions (and the
mask gets `[1]`).  `done` is never reset, and the fed token is `pred` in both
branches (`last_tokens.append([pred] * 4)`). -/
def sampleStep (padId boxHeight : ℕ) (lg : List ℤ) (st : SampleSt) : SampleSt :=
  let pred := argmaxIdx lg
  if pred = padId then
    SampleSt.mk st.preds (st.fed ++ [pred]) true
  else
    SampleSt.mk (st.preds ++ [(pred : ℤ) - (boxHeight : ℤ)]) (st.fed ++ [pred]) st.done

/-- The per-sample loop of lines 78-91 over the whole batch.  A missing
logits row leaves the remaining samples untouched, mirroring
`range(logits.shape[0])`. -/
def batchStep (padId boxHeight : ℕ) : List (List ℤ) → List SampleSt → List SampleSt
  | [], sts => sts
  | _, [] => []
  | lg :: lgs, st :: sts => sampleStep padId boxHeight lg st :: batchStep padId boxHeight lgs sts

/-- An oracle step for a fixed batch: from every sample's fed-token history
to one logits row per sample. -/
def StepOracle : Type := List (List ℕ) → List (List ℤ)

/-- One full iteration of the `while` body: invoke the model on the current
histories and run the per-sample loop. -/
def stepOnce (padId boxHeight : ℕ) (oracle : StepOracle) (sts : List SampleSt) : List SampleSt :=
  batchStep padId boxHeight (oracle (sts.map (fun s => s.fed))) sts

/-- The decoding `while` loop (lines 67-102) with `fuel` remaining iterations
(`fuel = ORDER_MAX_BOXES - token_count`); returns the final states and the
number of iterations (model invocations) performed.  The loop breaks as soon
as `all(done)` holds after a body execution, and otherwise stops when
`token_count` reaches `ORDER_MAX_BOXES`. -/
def decodeLoopAux (padId boxHeight : ℕ) (oracle : StepOracle) :
    ℕ → List SampleSt → List SampleSt × ℕ
  | 0, sts => (sts, 0)
  | fuel + 1, sts =>
    let sts' := stepOnce padId boxHeight oracle sts
    if sts'.all (fun s => s.done) then (sts', 1)
    else
      let r := decodeLoopAux padId boxHeight oracle fuel sts'
      (r.1, r.2 + 1)

/-- The whole inference-mode block for one batch of `n` samples: run the
decoding loop from `n` fresh states and return `batch_predictions`. -/
def decodeBatchPreds (padId boxHeight : ℕ) (oracle : StepOracle) (maxBoxes n : ℕ) :
    List (List ℤ) :=
  ((decodeLoopAux padId boxHeight oracle maxBoxes (List.replicate n initState)).1).map
    (fun s => s.preds)

/-- A row of the `combined` list of line 114: `[original_index, bbox, label, rank]`. -/
structure SRow (α : Type) where
  idx : ℕ
  box : α
  label : String
  rank : ℕ
deriving DecidableEq

/-- Lines 111-127 (the labels-present branch): pair boxes with labels and raw
ranks, sort by raw rank, partition into header / body / footer groups, assign
dense new ranks by concatenated position, and re-sort by original index. -/
def structuralReorder {α : Type} (row_bboxes : List α) (row_label : List String)
    (ranks : List ℕ) : List α × List ℕ :=
  let combined := (row_bboxes.zip (row_label.zip ranks)).enum.map
    (fun p => SRow.mk p.1 p.2.1 p.2.2.1 p.2.2.2)
  let combined := List.insertionSort (fun x y => x.rank ≤ y.rank) combined
  let sorted_boxes :=
    (combined.filter (fun row => row.label = "Page-header")) ++
    (combined.filter (fun row => row.label ≠ "Page-header" ∧ row.label ≠ "Page-footer")) ++
    (combined.filter (fun row => row.label = "Page-footer"))
  let sorted_boxes := sorted_boxes.enum.map (fun p => SRow.mk p.2.idx p.2.box p.2.label p.1)
  let sorted_boxes := List.insertionSort (fun x y => x.idx ≤ y.idx) sorted_boxes
  (sorted_boxes.map (fun r => r.box), sorted_boxes.map (fun r => r.rank))

/-- `OrderBox` of `surya.schema`: a box plus its final 0-based position. -/
structure OrderBox (α : Type) where
  bbox : α
  position : ℕ
deriving DecidableEq

/-- `OrderResult` of `surya.schema`: the ordered boxes of one sample plus the
page bounding box `[0, 0, width, height]`. -/
structure OrderResult (α : Type) where
  bboxes : List (OrderBox α)
  image_bbox : List ℕ
deriving DecidableEq

/-- Lines 104-141 for one sample: the post-loop count assertion, the raw
ranks via `rank_elements`, the optional structural reorder, and the final
`OrderResult` assembly. -/
def assembleRow {α : Type} (row_pred : List ℤ) (row_bboxes : List α)
    (row_label : Option (List String)) (orig_size : Img) : Except String (OrderResult α) :=
  if row_pred.length = row_bboxes.length then
    let ranks := rank_elements row_pred
    let br : List α × List ℕ :=
      match row_label with
      | none => (row_bboxes, ranks)
      | some lbl => structuralReorder row_bboxes lbl ranks
    Except.ok (OrderResult.mk ((br.1.zip br.2).map (fun p => OrderBox.mk p.1 p.2))
      [0, 0, orig_size.width, orig_size.height])
  else
    Except.error ("Mismatch between logits and bboxes.")

/-- One sample as the batching loop sees it: image, original bboxes, and
(when supplied) its label list. -/
structure SampleIn (α : Type) where
  img : Img
  bboxes : List α
  labels : Option (List String)
deriving DecidableEq

/-- Bundle the three parallel caller lists into per-sample records. -/
def sampleTriples {α : Type} (images : List Img) (bboxes : List (List α)) :
    Option (List (List String)) → List (SampleIn α)
  | none => (images.zip bboxes).map (fun p => SampleIn.mk p.1 p.2 none)
  | some ls => (images.zip (bboxes.zip ls)).map (fun p => SampleIn.mk p.1 p.2.1 (some p.2.2))

/-- `lst[i:i+bs]` slicing of `for i in range(0, len(lst), bs)`, with an
explicit structural fuel (`fuel ≥ lst.length` and `bs ≥ 1` in every use). -/
def chunkListGo {α : Type} (bs : ℕ) : ℕ → List α → List (List α)
  | 0, _ => []
  | _, [] => []
  | fuel + 1, l => l.take bs :: chunkListGo bs fuel (l.drop bs)

/-- Split a list into contiguous batches of size `bs` (the final one may be
shorter), as `range(0, len, bs)` slicing does for `bs ≥ 1`. -/
def chunkList {α : Type} (bs : ℕ) (l : List α) : List (List α) :=
  chunkListGo bs l.length l

/-- The full model abstraction: given one batch's images and input boxes
(everything the processor and `model(...)` consume besides the fed-back
tokens), a per-step oracle for that batch. -/
def BatchOracle (α : Type) : Type := List Img → List (List α) → StepOracle

/-- The `for j, row_pred in enumerate(batch_predictions)` assembly loop of
lines 104-141: the first failing assert raises, otherwise the results are
collected in sample order. -/
def assembleAll {α : Type} : List (SampleIn α × List ℤ) → Except String (List (OrderResult α))
  | [] => Except.ok []
  | p :: rest =>
    match assembleRow p.2 p.1.bboxes p.1.labels p.1.img with
    | Except.error e => Except.error e
    | Except.ok r =>
      match assembleAll rest with
      | Except.error e => Except.error e
      | Except.ok rs => Except.ok (r :: rs)

/-- Lines 46-141 for one batch: decode, then assemble every sample,
propagating the first assertion failure. -/
def processBatch {α : Type} (padId boxHeight : ℕ) (oracle : BatchOracle α) (maxBoxes : ℕ)
    (batch : List (SampleIn α)) : Except String (List (OrderResult α)) :=
  let preds := decodeBatchPreds padId boxHeight
    (oracle (batch.map (fun s => s.img)) (batch.map (fun s => s.bboxes))) maxBoxes batch.length
  assembleAll (batch.zip preds)

/-- The outer `for i in range(0, len(images), batch_size)` loop: process the
batches in order, appending each batch's results to `output_order`; a raised
assert aborts the whole call (later batches never run, the accumulated
results are lost). -/
def runBatches {α : Type} (padId boxHeight : ℕ) (oracle : BatchOracle α) (maxBoxes : ℕ) :
    List (List (SampleIn α)) → Except String (List (OrderResult α))
  | [] => Except.ok []
  | b :: bs =>
    match processBatch padId boxHeight oracle maxBoxes b with
    | Except.error e => Except.error e
    | Except.ok rs =>
      match runBatches padId boxHeight oracle maxBoxes bs with
      | Except.error e => Except.error e
      | Except.ok rest => Except.ok (rs ++ rest)

/-- The caller-side label asserts of lines 38-41. -/
def labelsOk {α : Type} (images : List Img) (bboxes : List (List α)) :
    Option (List (List String)) → Bool
  | none => true
  | some ls =>
    ls.length = images.length &&
      (ls.zip bboxes).all (fun p => p.1.length = p.2.length)

/-- `batch_ordering` (ordering.py lines 33-142): input asserts, batch
scheduling, per-batch decoding and assembly, accumulating `output_order`.
A failing assert (or a zero batch size, on which `range` raises `ValueError`)
aborts the whole call with an error and discards the accumulator. -/
def batchOrdering {α : Type} (padId boxHeight : ℕ) (oracle : BatchOracle α) (stg : Settings)
    (images : List Img) (bboxes : List (List α)) (labels : Option (List (List String))) :
    Except String (List (OrderResult α)) :=
  if images.length = bboxes.length then
    if labelsOk images bboxes labels then
      let batch_size := get_batch_size stg
      if batch_size = 0 then Except.error ("ValueError")
      else
        runBatches padId boxHeight oracle stg.ORDER_MAX_BOXES
          (chunkList batch_size (sampleTriples images bboxes labels))
    else Except.error ("AssertionError")
  else Except.error ("AssertionError")

/-- A concrete single-sample oracle exhibiting the dead-masking defect of
lines 81-83 (`token_pad_id = 0`, `box_size["height"] = 1`): at step 1 the
unmasked arg-max re-selects token 1 although box slot 0 was already emitted,
and at step 2 slot 1 is emitted a second time. -/
def oracleC1 : StepOracle := fun hists =>
  match hists with
  | [[]] => [[0, 0, 5, 1]]
  | [[2]] => [[0, 5, 1, 0]]
  | [[2, 1]] => [[0, 0, 5, 0]]
  | _ => [[5, 0, 0, 0]]

/-- A concrete two-sample oracle (`token_pad_id = 0`, `box_size["height"] = 1`)
whose first sample emits the terminator at step 1 and a non-terminator at
step 2, while the second sample stays active. -/
def oracleC3 : StepOracle := fun hists =>
  match hists with
  | [[], []] => [[5, 0], [0, 5]]
  | [[0], [1]] => [[0, 5], [0, 5]]
  | _ => [[5, 0], [5, 0]]

/-- `batch_predictions` as extracted for one batch by the decoding loop. -/
def batchPredsOf {α : Type} (padId boxHeight : ℕ) (oracle : BatchOracle α) (maxBoxes : ℕ)
    (batch : List (SampleIn α)) : List (List ℤ) :=
  decodeBatchPreds padId boxHeight
    (oracle (batch.map (fun s => s.img)) (batch.map (fun s => s.bboxes))) maxBoxes batch.length

/-- Every sample's decoded predictions, in submission order, for a given
batch size: the concatenation of the per-batch `batch_predictions`. -/
def samplePredsList {α : Type} (padId boxHeight : ℕ) (oracle : BatchOracle α)
    (maxBoxes bs : ℕ) (samples : List (SampleIn α)) : List (List ℤ) :=
  ((chunkList bs samples).map (batchPredsOf padId boxHeight oracle maxBoxes)).flatten

/-- Placeholder sample used as a `getD` default. -/
def dfltSample {α : Type} : SampleIn α := SampleIn.mk (Img.mk 0 0) [] none

/-- Placeholder result used as a `getD` default. -/
def dfltResult {α : Type} : OrderResult α := OrderResult.mk [] []

/-- A concrete batch-level oracle (`token_pad_id = 0`,
`box_size["height"] = 1`) for singleton batches: a 1-box sample decodes its
single slot then terminates, while any other sample terminates immediately
with no predictions. -/
def oracleC4 : BatchOracle ℕ := fun _ bbs hists =>
  if bbs.map List.length = [1] then
    (if hists = [[]] then [[0, 5]] else [[5, 0]])
  else [[5, 0]]

/-- A concrete batch-level oracle (`token_pad_id = 0`,
`box_size["height"] = 1`) for a single two-box sample: it emits slot 1, then
slot 0, then the terminator. -/
def oracleW2 : BatchOracle ℕ := fun _ _ hists =>
  match hists with
  | [[]] => [[0, 0, 5]]
  | [[2]] => [[0, 5, 0]]
  | _ => [[5, 0, 0]]

/-- An oracle factors through the per-sample logits function `f` when sample
`j`'s logits row depends only on that sample's image, input boxes, and
fed-token history — never on the other samples sharing the batch.  This is
the claim's "same per-sample Oracle behavior" premise. -/
def OracleFactors {α : Type} (oracle : BatchOracle α)
    (f : Img → List α → List ℕ → List ℤ) : Prop :=
  ∀ imgs bbs hists, oracle imgs bbs hists =
    List.zipWith (fun p h => f p.1 p.2 h) (imgs.zip bbs) hists

/-- A per-sample logits function is pad-absorbing for `padId` when, once some
history makes it emit the terminator, every extension of that history still
does — i.e. a terminated sample asks to stay terminated. -/
def PadAbsorbing {α : Type} (padId : ℕ) (f : Img → List α → List ℕ → List ℤ) : Prop :=
  ∀ img bbs h t, argmaxIdx (f img bbs h) = padId → argmaxIdx (f img bbs (h ++ t)) = padId

/-- One decoding step of a sample run alone against its per-sample logits
function `g`. -/
def soloStep (padId boxHeight : ℕ) (g : List ℕ → List ℤ) (st : SampleSt) : SampleSt :=
  sampleStep padId boxHeight (g st.fed) st

/-- The predictions a sample accumulates when stepped the full
`ORDER_MAX_BOXES` times alone against its per-sample logits function. -/
def soloPreds (padId boxHeight : ℕ) (g : List ℕ → List ℤ) (maxBoxes : ℕ) : List ℤ :=
  ((soloStep padId boxHeight g)^[maxBoxes] initState).preds

/-- The batching-free reference pipeline: assemble every sample from its own
solo decode, in submission order. -/
def canonicalRun {α : Type} (padId boxHeight : ℕ) (f : Img → List α → List ℕ → List ℤ)
    (maxBoxes : ℕ) (samples : List (SampleIn α)) : Except String (List (OrderResult α)) :=
  assembleAll (samples.map
    (fun s => (s, soloPreds padId boxHeight (f s.img s.bboxes) maxBoxes)))

/-- The per-sample logits function of the C8 counterexample (`token_pad_id =
0`, `box_size["height"] = 1`): a 1-box sample emits its slot and then the
terminator, but on any longer history would emit the slot again; a 2-box
sample emits slot 0, slot 1, then the terminator. -/
def f8 (img : Img) (bbs : List ℕ) (hist : List ℕ) : List ℤ :=
  if bbs.length = 1 then
    (match hist with
     | [] => [0, 5]
     | [_] => [5, 0]
     | _ => [0, 5])
  else
    (match hist with
     | [] => [0, 5, 0]
     | [_] => [0, 0, 5]
     | _ => [5, 0, 0])

/-- The batch oracle induced by `f8`: per-sample by construction. -/
def orc8 : BatchOracle ℕ := fun imgs bbs hists =>
  List.zipWith (fun p h => f8 p.1 p.2 h) (imgs.zip bbs) hists

/-- A per-sample logits function that always asks for the terminator
(`token_pad_id = 0`); trivially pad-absorbing. -/
def f0 : Img → List ℕ → List ℕ → List ℤ := fun _ _ _ => [5, 0]

/-- The batch oracle induced by `f0`. -/
def orc0 : BatchOracle ℕ := fun imgs bbs hists =>
  List.zipWith (fun p h => f0 p.1 p.2 h) (imgs.zip bbs) hists

/-- Stage 1 of `structuralReorder`: the `combined` list of line 114. -/
def combinedRows {α : Type} (row_bboxes : List α) (row_label : List String)
    (ranks : List ℕ) : List (SRow α) :=
  (row_bboxes.zip (row_label.zip ranks)).enum.map
    (fun p => SRow.mk p.1 p.2.1 p.2.2.1 p.2.2.2)

/-- Stage 2: `combined` sorted ascending by raw rank (line 115). -/
def rankSorted {α : Type} (row_bboxes : List α) (row_label : List String)
    (ranks : List ℕ) : List (SRow α) :=
  List.insertionSort (fun x y => x.rank ≤ y.rank) (combinedRows row_bboxes row_label ranks)

/-- Stage 3: the header / body / footer concatenation of lines 117-119. -/
def concatRows {α : Type} (row_bboxes : List α) (row_label : List String)
    (ranks : List ℕ) : List (SRow α) :=
  (rankSorted row_bboxes row_label ranks).filter (fun row => row.label = "Page-header") ++
  (rankSorted row_bboxes row_label ranks).filter
    (fun row => row.label ≠ "Page-header" ∧ row.label ≠ "Page-footer") ++
  (rankSorted row_bboxes row_label ranks).filter (fun row => row.label = "Page-footer")

/-- Stage 4: re-rank by concatenated position (lines 121-123). -/
def reRanked {α : Type} (row_bboxes : List α) (row_label : List String)
    (ranks : List ℕ) : List (SRow α) :=
  (concatRows row_bboxes row_label ranks).enum.map
    (fun p => SRow.mk p.2.idx p.2.box p.2.label p.1)

/-- Stage 5: re-sort by original array index (line 125). -/
def finalRows {α : Type} (row_bboxes : List α) (row_label : List String)
    (ranks : List ℕ) : List (SRow α) :=
  List.insertionSort (fun x y => x.idx ≤ y.idx) (reRanked row_bboxes row_label ranks)

/-- The three-way classification used by the spec's header/footer law. -/
def groupOf (label : String) : ℕ :=
  if label = "Page-header" then 0 else if label = "Page-footer" then 2 else 1

/-- The strict lexicographic "comes earlier in a stable value-sort" order on
enumerated entries: smaller value, or equal value and smaller original index. -/
def lexR {α : Type} [LinearOrder α] (x y : ℕ × α) : Prop :=
  x.2 < y.2 ∨ (x.2 = y.2 ∧ x.1 < y.1)

instance lexR_decidable {α : Type} [LinearOrder α] : DecidableRel (lexR (α := α)) := by
  intro x y
  unfold lexR
  infer_instance

/-- First position of an element in a list (instance-free index). -/
def posOf {β : Type} [DecidableEq β] (x : β) (S : List β) : ℕ :=
  S.findIdx (fun y => y = x)

/-- The stable sort underlying `rank_elements`. -/
def valSorted {α : Type} [LinearOrder α] (arr : List α) : List (ℕ × α) :=
  List.insertionSort (fun x y => x.2 ≤ y.2) arr.enum

/-! ## Theory of `rank_elements` -/

theorem lexR_asymm {α : Type} [LinearOrder α] (x y : ℕ × α) : lexR x y → ¬ lexR y x := by
  rintro (h | ⟨h, h'⟩) (g | ⟨g, g'⟩)
  · exact absurd g (lt_asymm h)
  · rw [g] at h
    exact lt_irrefl _ h
  · rw [h] at g
    exact lt_irrefl _ g
  · omega

theorem lexR_total_of_ne {α : Type} [LinearOrder α] (x y : ℕ × α) (h : x ≠ y) :
    lexR x y ∨ lexR y x := by
  rcases x with ⟨i, a⟩
  rcases y with ⟨j, b⟩
  rcases lt_trichotomy a b with hv | hv | hv
  · exact Or.inl (Or.inl hv)
  · subst hv
    rcases Nat.lt_trichotomy i j with hi | hi | hi
    · exact Or.inl (Or.inr ⟨rfl, hi⟩)
    · exact absurd (by simp [hi]) h
    · exact Or.inr (Or.inr ⟨rfl, hi⟩)
  · exact Or.inr (Or.inl hv)

theorem posOf_cons_self {β : Type} [DecidableEq β] (x : β) (T : List β) :
    posOf x (x :: T) = 0 := by
  simp [posOf, List.findIdx_cons]

theorem posOf_cons_ne {β : Type} [DecidableEq β] {s x : β} (T : List β) (h : s ≠ x) :
    posOf x (s :: T) = posOf x T + 1 := by
  simp [posOf, List.findIdx_cons, h]

theorem posOf_spec {β : Type} [DecidableEq β] {x : β} {S : List β} (hx : x ∈ S) :
    ∃ h : posOf x S < S.length, S.get ⟨posOf x S, h⟩ = x := by
  induction S with
  | nil => cases hx
  | cons s T ih =>
    by_cases hsx : s = x
    · subst hsx
      exact ⟨by simp [posOf_cons_self], by simp [posOf_cons_self]⟩
    · have hxT : x ∈ T := by
        rcases List.mem_cons.mp hx with rfl | h
        · exact absurd rfl hsx
        · exact h
      rcases ih hxT with ⟨hlt, hget⟩
      refine ⟨by rw [posOf_cons_ne T hsx]; simpa using Nat.succ_lt_succ hlt, ?_⟩
      have := posOf_cons_ne T hsx
      simp only [this, List.length_cons, List.get_cons_succ]
      exact hget

theorem posOf_get {β : Type} [DecidableEq β] {S : List β} (hnd : S.Nodup)
    (i : Fin S.length) : posOf (S.get i) S = i.1 := by
  rcases posOf_spec (S.get_mem i.1 i.2) with ⟨hlt, hget⟩
  have := List.nodup_iff_injective_get.mp hnd hget
  exact congrArg Fin.val this

/-- In a `Pairwise R` list with `R` asymmetric and total on its elements, the
position of an element is the number of elements `R`-below it. -/
theorem posOf_eq_countP {β : Type} [DecidableEq β] {R : β → β → Prop} [DecidableRel R]
    {S : List β} {x : β} (hp : S.Pairwise R) (hx : x ∈ S)
    (hasym : ∀ a b, R a b → ¬ R b a)
    (htot : ∀ y ∈ S, y ≠ x → R y x ∨ R x y) :
    posOf x S = S.countP (fun y => decide (R y x)) := by
  induction S with
  | nil => cases hx
  | cons s T ih =>
    rcases List.pairwise_cons.mp hp with ⟨hsT, hpT⟩
    by_cases hsx : s = x
    · subst hsx
      rw [posOf_cons_self]
      have h0 : List.countP (fun y => decide (R y s)) (s :: T) = 0 := by
        rw [List.countP_eq_zero]
        intro a ha
        simp only [decide_eq_true_eq]
        rcases List.mem_cons.mp ha with rfl | haT
        · exact fun h => hasym _ _ h h
        · exact hasym _ _ (hsT a haT)
      omega
    · have hxT : x ∈ T := by
        rcases List.mem_cons.mp hx with rfl | h
        · exact absurd rfl hsx
        · exact h
      have hRsx : R s x := by
        rcases htot s (List.mem_cons_self s T) (fun h => hsx h) with h | h
        · exact h
        · exact absurd (hsT x hxT) (hasym _ _ h)
      rw [posOf_cons_ne T hsx,
        List.countP_cons_of_pos _ _ (by simpa using hRsx)]
      have := ih hpT hxT (fun y hy => htot y (List.mem_cons_of_mem s hy))
      omega

/-- Two positions of a list, in order, form a sublist. -/
theorem pair_get_sublist {β : Type} {l : List β} {i j : ℕ} (hij : i < j)
    (hi : i < l.length) (hj : j < l.length) :
    List.Sublist [l.get ⟨i, hi⟩, l.get ⟨j, hj⟩] l := by
  have hpw : ([⟨i, hi⟩, ⟨j, hj⟩] : List (Fin l.length)).Pairwise (· < ·) := by
    simp [hij]
  simpa using List.map_get_sublist hpw

/-- A two-element sublist appears at two increasing positions. -/
theorem sublist_pair_exists_get {β : Type} {x y : β} {S : List β}
    (h : List.Sublist [x, y] S) :
    ∃ p q : Fin S.length, p < q ∧ S.get p = x ∧ S.get q = y := by
  induction S with
  | nil => cases h
  | cons s T ih =>
    rcases List.cons_sublist_cons'.mp h with h' | ⟨rfl, h'⟩
    · rcases ih h' with ⟨p, q, hpq, hx, hy⟩
      refine ⟨p.succ, q.succ, by simpa using hpq, ?_, ?_⟩
      · simpa using hx
      · simpa using hy
    · rcases List.get_of_mem (List.singleton_sublist.mp h') with ⟨q, hy⟩
      refine ⟨⟨0, by simp⟩, q.succ, by simp [Fin.lt_def], rfl, by simpa using hy⟩

/-- The enumerated list is duplicate-free. -/
theorem enum_nodup {β : Type} (l : List β) : l.enum.Nodup := by
  have := l.enum_map_fst ▸ List.nodup_range l.length
  exact this.of_map _

/-- Membership in `l.enum` pins down the component at the first coordinate. -/
theorem mem_enum_eq_get {β : Type} {l : List β} {q : ℕ × β} (h : q ∈ l.enum) :
    ∃ hq : q.1 < l.length, q.2 = l.get ⟨q.1, hq⟩ := by
  have := List.mk_mem_enum_iff_getElem?.mp (show (q.1, q.2) ∈ l.enum from h)
  have hq : q.1 < l.length := by
    by_contra hc
    rw [List.getElem?_eq_none (by omega)] at this
    cases this
  refine ⟨hq, ?_⟩
  rw [List.getElem?_eq_getElem hq] at this
  simpa using this.symm

theorem valSorted_perm {α : Type} [LinearOrder α] (arr : List α) :
    List.Perm (valSorted arr) arr.enum :=
  List.perm_insertionSort _ _

theorem valSorted_nodup {α : Type} [LinearOrder α] (arr : List α) :
    (valSorted arr).Nodup :=
  ((valSorted_perm arr).nodup_iff).mpr (enum_nodup arr)

theorem valSorted_pairwise_le {α : Type} [LinearOrder α] (arr : List α) :
    (valSorted arr).Pairwise (fun x y : ℕ × α => x.2 ≤ y.2) := by
  haveI : IsTotal (ℕ × α) (fun x y : ℕ × α => x.2 ≤ y.2) := ⟨fun a b => le_total a.2 b.2⟩
  haveI : IsTrans (ℕ × α) (fun x y : ℕ × α => x.2 ≤ y.2) :=
    ⟨fun _ _ _ hab hbc => le_trans hab hbc⟩
  exact List.sorted_insertionSort _ _

/-- Stability of the sort: entries with equal values stay in index order. -/
theorem valSorted_pairwise_lexR {α : Type} [LinearOrder α] (arr : List α) :
    (valSorted arr).Pairwise (lexR (α := α)) := by
  set S := valSorted arr with hS
  rw [List.pairwise_iff_get]
  intro u v huv
  have hle : (S.get u).2 ≤ (S.get v).2 :=
    (List.pairwise_iff_get.mp (valSorted_pairwise_le arr)) u v huv
  rcases lt_or_eq_of_le hle with hlt | heq
  · exact Or.inl hlt
  · refine Or.inr ⟨heq, ?_⟩
    by_contra hc
    push_neg at hc
    rcases Nat.lt_or_ge ((S.get v).1) ((S.get u).1) with hvu | huvge
    · -- the tied pair [S.get v, S.get u] is a sublist of the enum, hence of S
      have hmu : S.get u ∈ arr.enum := (valSorted_perm arr).subset (S.get_mem _ _)
      have hmv : S.get v ∈ arr.enum := (valSorted_perm arr).subset (S.get_mem _ _)
      rcases mem_enum_eq_get hmu with ⟨hqu, hqu2⟩
      rcases mem_enum_eq_get hmv with ⟨hqv, hqv2⟩
      have hgu : arr.enum.get ⟨(S.get u).1, by simpa [List.enum_length] using hqu⟩ = S.get u := by
        rw [List.get_enum]
        exact Prod.ext rfl hqu2.symm
      have hgv : arr.enum.get ⟨(S.get v).1, by simpa [List.enum_length] using hqv⟩ = S.get v := by
        rw [List.get_enum]
        exact Prod.ext rfl hqv2.symm
      have hsub : List.Sublist [S.get v, S.get u] arr.enum := by
        have := pair_get_sublist (l := arr.enum) (i := (S.get v).1) (j := (S.get u).1) hvu
          (by simpa [List.enum_length] using hqv) (by simpa [List.enum_length] using hqu)
        rw [hgv, hgu] at this
        exact this
      have hsubS : List.Sublist [S.get v, S.get u] S :=
        List.pair_sublist_insertionSort (le_of_eq (by simpa using heq.symm)) hsub
      rcases sublist_pair_exists_get hsubS with ⟨p, q, hpq, hpv, hqu⟩
      have hp : p = v := List.nodup_iff_injective_get.mp (valSorted_nodup arr) hpv
      have hq : q = u := List.nodup_iff_injective_get.mp (valSorted_nodup arr) hqu
      rw [hp, hq] at hpq
      have : (v : ℕ) < (u : ℕ) := hpq
      omega
    · rcases Nat.lt_or_ge ((S.get u).1) ((S.get v).1) with h1 | h2
      · omega
      · have hfst : (S.get u).1 = (S.get v).1 := by omega
        have : S.get u = S.get v := Prod.ext hfst heq
        have := List.nodup_iff_injective_get.mp (valSorted_nodup arr) this
        omega

/-- Position in the stable sort, as a count over the enumerated input. -/
theorem valSorted_posOf_eq {α : Type} [LinearOrder α] (arr : List α) {i : ℕ}
    (h : i < arr.length) :
    posOf (i, arr.get ⟨i, h⟩) (valSorted arr) =
      arr.enum.countP (fun q => decide (lexR q (i, arr.get ⟨i, h⟩))) := by
  have hmem : (i, arr.get ⟨i, h⟩) ∈ arr.enum := by
    rw [List.mk_mem_enum_iff_getElem?, List.getElem?_eq_getElem h]
    simp
  have hmemS : (i, arr.get ⟨i, h⟩) ∈ valSorted arr := (valSorted_perm arr).mem_iff.mpr hmem
  rw [posOf_eq_countP (valSorted_pairwise_lexR arr) hmemS lexR_asymm
    (fun y _ hy => lexR_total_of_ne y _ hy)]
  exact ((valSorted_perm arr).countP_eq _)

theorem rankWrites_length {γ : Type} :
    ∀ (ws : List (ℕ × (ℕ × γ))) (init : List ℕ),
      (ws.foldl (fun rank p => rank.set p.2.1 p.1) init).length = init.length := by
  intro ws
  induction ws with
  | nil => intro init; rfl
  | cons w ws ih =>
    intro init
    simp only [List.foldl_cons]
    rw [ih]
    exact List.length_set ..

theorem rankWrites_untouched {γ : Type} :
    ∀ (ws : List (ℕ × (ℕ × γ))) (init : List ℕ) (i : ℕ), (∀ p ∈ ws, p.2.1 ≠ i) →
      (ws.foldl (fun rank p => rank.set p.2.1 p.1) init)[i]? = init[i]? := by
  intro ws
  induction ws with
  | nil => intro init i _; rfl
  | cons w ws ih =>
    intro init i hne
    simp only [List.foldl_cons]
    rw [ih _ _ (fun p hp => hne p (List.mem_cons_of_mem w hp)),
      List.getElem?_set_ne (hne w (List.mem_cons_self w ws))]

theorem rankWrites_hit {γ : Type} (ws1 ws2 : List (ℕ × (ℕ × γ))) (w : ℕ × (ℕ × γ))
    (init : List ℕ) (hlt : w.2.1 < init.length) (h2 : ∀ q ∈ ws2, q.2.1 ≠ w.2.1) :
    ((ws1 ++ w :: ws2).foldl (fun rank p => rank.set p.2.1 p.1) init)[w.2.1]? = some w.1 := by
  rw [List.foldl_append, List.foldl_cons, rankWrites_untouched ws2 _ _ h2]
  have hlen : (ws1.foldl (fun rank p => rank.set p.2.1 p.1) init).length = init.length :=
    rankWrites_length ws1 init
  rw [List.getElem?_set_self' ..]
  rw [List.getElem?_eq_getElem (by omega)]
  rfl

/-- The value of `rank_elements` at an in-range original index `i` is the
position of `(i, arr[i])` in the stable value-sort. -/
theorem rank_elements_getD {α : Type} [LinearOrder α] (arr : List α) (i : ℕ)
    (h : i < arr.length) :
    (rank_elements arr).getD i 0 = posOf (i, arr.get ⟨i, h⟩) (valSorted arr) := by
  have hmem : (i, arr.get ⟨i, h⟩) ∈ arr.enum := by
    rw [List.mk_mem_enum_iff_getElem?, List.getElem?_eq_getElem h]
    simp
  have hmemS : (i, arr.get ⟨i, h⟩) ∈ valSorted arr := (valSorted_perm arr).mem_iff.mpr hmem
  rcases posOf_spec hmemS with ⟨hplt, hpget⟩
  set S := valSorted arr with hSdef
  set p := posOf (i, arr.get ⟨i, h⟩) S with hpdef
  have hdecomp : S = S.take p ++ (i, arr.get ⟨i, h⟩) :: S.drop (p + 1) := by
    conv_lhs => rw [← List.take_append_drop p S]
    rw [List.drop_eq_getElem_cons hplt]
    congr 1
    rw [List.get_eq_getElem] at hpget
    rw [hpget]
  have hnotin : (i, arr.get ⟨i, h⟩) ∉ S.drop (p + 1) := by
    have hnd : S.Nodup := valSorted_nodup arr
    rw [hdecomp] at hnd
    rcases List.nodup_append.mp hnd with ⟨-, hnd2, -⟩
    exact (List.nodup_cons.mp hnd2).1
  have henum : S.enum = (S.take p).enum ++
      (p, (i, arr.get ⟨i, h⟩)) :: List.enumFrom (p + 1) (S.drop (p + 1)) := by
    conv_lhs => rw [hdecomp]
    rw [List.enum_append]
    congr 1
    · rw [List.length_take, Nat.min_eq_left (Nat.le_of_lt hplt)]
      rfl
  have hws2 : ∀ q ∈ List.enumFrom (p + 1) (S.drop (p + 1)),
      q.2.1 ≠ ((p, ((i : ℕ), arr.get ⟨i, h⟩)) : ℕ × (ℕ × α)).2.1 := by
    intro q hq hq1
    have hqS : q.2 ∈ S.drop (p + 1) := List.snd_mem_of_mem_enumFrom hq
    have hqSm : q.2 ∈ S := List.mem_of_mem_drop hqS
    have hqE : q.2 ∈ arr.enum := (valSorted_perm arr).subset hqSm
    rcases mem_enum_eq_get hqE with ⟨hq2, hq3⟩
    have : q.2 = (i, arr.get ⟨i, h⟩) := by
      have : q.2.1 = i := hq1
      refine Prod.ext this ?_
      rw [hq3]
      simp only [this]
    rw [this] at hqS
    exact hnotin hqS
  have hres := rankWrites_hit ((S.take p).enum)
    (List.enumFrom (p + 1) (S.drop (p + 1))) (p, (i, arr.get ⟨i, h⟩))
    (List.replicate arr.length 0) (by simpa using h) hws2
  have : rank_elements arr =
      (S.enum.foldl (fun rank p => rank.set p.2.1 p.1) (List.replicate arr.length 0)) := rfl
  rw [this, henum]
  have := hres
  simp only at this ⊢
  rw [List.getD, List.get?_eq_getElem?, this]
  rfl

theorem rank_elements_length {α : Type} [LinearOrder α] (arr : List α) :
    (rank_elements arr).length = arr.length := by
  have : rank_elements arr =
      ((valSorted arr).enum.foldl (fun rank p => rank.set p.2.1 p.1)
        (List.replicate arr.length 0)) := rfl
  rw [this, rankWrites_length]
  exact List.length_replicate ..

theorem countP_enumFrom_snd {β : Type} (p : β → Bool) :
    ∀ (l : List β) (k : ℕ), (List.enumFrom k l).countP (fun q => p q.2) = l.countP p := by
  intro l
  induction l with
  | nil => intro k; rfl
  | cons x T ih =>
    intro k
    rw [List.enumFrom_cons, List.countP_cons, List.countP_cons, ih (k + 1)]

theorem countP_lt_range (k : ℕ) : ∀ (n : ℕ),
    (List.range n).countP (fun v => decide (v < k)) = min k n := by
  intro n
  induction n with
  | zero => simp
  | succ n ih =>
    rw [List.range_succ, List.countP_append, ih]
    by_cases h : n < k
    · simp only [List.countP_singleton, h]
      simp only [decide_eq_true_eq, h, if_pos]
      omega
    · simp only [List.countP_singleton]
      simp only [decide_eq_true_eq] at *
      rw [if_neg h]
      omega

theorem pair_mem_enum {β : Type} (l : List β) (i : ℕ) (h : i < l.length) :
    (i, l.get ⟨i, h⟩) ∈ l.enum := by
  rw [List.mk_mem_enum_iff_getElem?, List.getElem?_eq_getElem h]
  rfl

theorem rank_elements_get {α : Type} [LinearOrder α] (arr : List α) (i : ℕ)
    (h : i < arr.length) (h2 : i < (rank_elements arr).length) :
    (rank_elements arr).get ⟨i, h2⟩ = posOf (i, arr.get ⟨i, h⟩) (valSorted arr) := by
  have := rank_elements_getD arr i h
  rw [List.getD_eq_getElem _ 0 h2] at this
  simpa using this

/-- `rank_elements` always emits a permutation of `0, …, N-1`. -/
theorem rank_elements_perm_range {α : Type} [LinearOrder α] (arr : List α) :
    List.Perm (rank_elements arr) (List.range arr.length) := by
  have hlen : (rank_elements arr).length = arr.length := rank_elements_length arr
  have hnd : (rank_elements arr).Nodup := by
    rw [List.nodup_iff_injective_get]
    intro u v huv
    have hu : (u : ℕ) < arr.length := by omega
    have hv : (v : ℕ) < arr.length := by omega
    rw [rank_elements_get arr u.1 hu u.2, rank_elements_get arr v.1 hv v.2] at huv
    rcases posOf_spec ((valSorted_perm arr).mem_iff.mpr (pair_mem_enum arr u.1 hu))
      with ⟨hlt1, hg1⟩
    rcases posOf_spec ((valSorted_perm arr).mem_iff.mpr (pair_mem_enum arr v.1 hv))
      with ⟨hlt2, hg2⟩
    have hfin : (⟨posOf ((u : ℕ), arr.get ⟨u.1, hu⟩) (valSorted arr), hlt1⟩ :
        Fin (valSorted arr).length) = ⟨posOf ((v : ℕ), arr.get ⟨v.1, hv⟩) (valSorted arr), hlt2⟩ :=
      Fin.mk_eq_mk.mpr huv
    have hpair : ((u : ℕ), arr.get ⟨u.1, hu⟩) = ((v : ℕ), arr.get ⟨v.1, hv⟩) := by
      rw [← hg1, ← hg2, hfin]
    have := congrArg Prod.fst hpair
    exact Fin.ext this
  have hsub : ∀ x ∈ rank_elements arr, x ∈ List.range arr.length := by
    intro x hx
    rcases List.mem_iff_get.mp hx with ⟨u, hu⟩
    have hui : (u : ℕ) < arr.length := by omega
    rw [rank_elements_get arr u.1 hui u.2] at hu
    rcases posOf_spec ((valSorted_perm arr).mem_iff.mpr (pair_mem_enum arr u.1 hui))
      with ⟨hlt, -⟩
    rw [List.mem_range, ← hu]
    calc posOf ((u : ℕ), arr.get ⟨u.1, hui⟩) (valSorted arr)
        < (valSorted arr).length := hlt
      _ = arr.enum.length := (valSorted_perm arr).length_eq
      _ = arr.length := List.enum_length
  refine (hnd.subperm (fun x hx => hsub x hx)).perm_of_length_le ?_
  rw [hlen, List.length_range]

/-- On a permutation of `0, …, N-1`, `rank_elements` is the identity. -/
theorem rank_elements_of_perm_range (arr : List ℕ)
    (hperm : List.Perm arr (List.range arr.length)) : rank_elements arr = arr := by
  have hnd : arr.Nodup := hperm.nodup_iff.mpr (List.nodup_range arr.length)
  apply List.ext_getElem (by rw [rank_elements_length])
  intro i h1 h2
  have h : i < arr.length := h2
  have hg : (rank_elements arr)[i] = posOf (i, arr.get ⟨i, h⟩) (valSorted arr) :=
    rank_elements_get arr i h h1
  rw [hg, valSorted_posOf_eq arr h]
  have hcong : arr.enum.countP (fun q => decide (lexR q (i, arr.get ⟨i, h⟩))) =
      arr.enum.countP (fun q => decide (q.2 < arr.get ⟨i, h⟩)) := by
    apply List.countP_congr
    intro q hq
    simp only [decide_eq_true_eq]
    constructor
    · rintro (hlt | ⟨heq, hlt⟩)
      · exact hlt
      · exfalso
        rcases mem_enum_eq_get hq with ⟨hq1, hq2⟩
        have : arr.get ⟨q.1, hq1⟩ = arr.get ⟨i, h⟩ := by rw [← hq2, heq]
        have := List.nodup_iff_injective_get.mp hnd this
        have := congrArg Fin.val this
        simp only at this
        omega
    · intro hlt
      exact Or.inl hlt
  rw [hcong]
  have hsnd : arr.enum.countP (fun q => decide (q.2 < arr.get ⟨i, h⟩)) =
      arr.countP (fun v => decide (v < arr.get ⟨i, h⟩)) :=
    countP_enumFrom_snd (fun v => decide (v < arr.get ⟨i, h⟩)) arr 0
  rw [hsnd, hperm.countP_eq, countP_lt_range]
  have hmem : arr.get ⟨i, h⟩ ∈ List.range arr.length := hperm.subset (arr.get_mem i h)
  rw [List.mem_range] at hmem
  have hee : arr.get ⟨i, h⟩ = arr[i] := rfl
  rw [hee] at hmem ⊢
  omega

/-! ## Claim C6 -/

/-- C6 — For every input list of N comparable values (duplicates allowed),
`rank_elements` returns a list of N integers where each position holds the
0-based rank of its value under ascending order, with ties broken by original
position (the earlier-occurring equal value gets the lower rank): position
`i`'s output counts the entries `(j, v)` of the enumerated input with
`v < arr[i]`, or `v = arr[i]` and `j < i`.  In particular
`rank_elements [3,1,2] = [2,0,1]` and `rank_elements [5,5,5] = [0,1,2]`. -/
theorem claim_C6 {α : Type} [LinearOrder α] :
    (∀ (arr : List α), (rank_elements arr).length = arr.length) ∧
    (∀ (arr : List α) (i : ℕ) (h : i < arr.length),
      (rank_elements arr).getD i 0 =
        arr.enum.countP (fun q =>
          decide (q.2 < arr.get ⟨i, h⟩ ∨ (q.2 = arr.get ⟨i, h⟩ ∧ q.1 < i)))) ∧
    rank_elements ([3, 1, 2] : List ℤ) = [2, 0, 1] ∧
    rank_elements ([5, 5, 5] : List ℤ) = [0, 1, 2] := by
  refine ⟨rank_elements_length, ?_, by decide, by decide⟩
  intro arr i h
  rw [rank_elements_getD arr i h, valSorted_posOf_eq arr h]
  apply List.countP_congr
  intro q _
  constructor
  · intro hq
    simpa [lexR] using of_decide_eq_true hq
  · intro hq
    apply decide_eq_true
    simpa [lexR] using of_decide_eq_true hq

/-- Witness for C6 at the concrete input `[4, 7, 4]`, position 2: the second
occurrence of the tied value 4 gets rank 1. -/
theorem claim_C6_witness :
    (rank_elements ([4, 7, 4] : List ℤ)).getD 2 0 =
      ([4, 7, 4] : List ℤ).enum.countP (fun q =>
        decide (q.2 < ([4, 7, 4] : List ℤ).get ⟨2, by decide⟩ ∨
          (q.2 = ([4, 7, 4] : List ℤ).get ⟨2, by decide⟩ ∧ q.1 < 2))) :=
  claim_C6.2.1 [4, 7, 4] 2 (by decide)

/-! ## Claim C10 -/

/-- C10 counterexample — the claim asserts
`rank_elements(arr)[arr[i]] == i` for permutations; at `arr = [2, 0, 1]` and
`i = 0` the code yields `rank_elements([2,0,1]) = [2,0,1]` and
`[2,0,1][2] = 1 ≠ 0`. -/
theorem claim_C10_counterexample :
    (rank_elements ([2, 0, 1] : List ℕ)).getD (([2, 0, 1] : List ℕ).getD 0 0) 0 ≠ 0 := by
  decide

/-- C10 (amended) — For every list `arr` that is a permutation of `[0, N)`,
`rank_elements arr = arr` (the rank of each value of a permutation is the
value itself), hence `rank_elements (rank_elements arr) = arr`;
`rank_elements arr` is the inverse permutation of `arr` only when `arr` is an
involution. -/
theorem claim_C10_amended (arr : List ℕ)
    (hperm : List.Perm arr (List.range arr.length)) :
    rank_elements arr = arr ∧ rank_elements (rank_elements arr) = arr := by
  have h1 : rank_elements arr = arr := rank_elements_of_perm_range arr hperm
  refine ⟨h1, ?_⟩
  rw [h1, h1]

/-- Witness for the amended C10 at the permutation `[2, 0, 1]`. -/
theorem claim_C10_amended_witness :
    rank_elements ([2, 0, 1] : List ℕ) = [2, 0, 1] ∧
      rank_elements (rank_elements ([2, 0, 1] : List ℕ)) = [2, 0, 1] :=
  claim_C10_amended [2, 0, 1] (by decide)

/-! ## Theory of the decoding loop -/

/-- Characterization of the `while` loop: the step count is at most the fuel;
the final state is the step function iterated that many times; the loop never
continues past an all-done state; and it stops either at the fuel cap or at
an all-done state. -/
theorem decodeLoop_spec (padId boxHeight : ℕ) (oracle : StepOracle) :
    ∀ (fuel : ℕ) (sts : List SampleSt),
      (decodeLoopAux padId boxHeight oracle fuel sts).2 ≤ fuel ∧
      (decodeLoopAux padId boxHeight oracle fuel sts).1 =
        (stepOnce padId boxHeight oracle)^[(decodeLoopAux padId boxHeight oracle fuel sts).2]
          sts ∧
      (∀ k, 0 < k → k < (decodeLoopAux padId boxHeight oracle fuel sts).2 →
        ((stepOnce padId boxHeight oracle)^[k] sts).all (fun s => s.done) = false) ∧
      ((decodeLoopAux padId boxHeight oracle fuel sts).2 = fuel ∨
        ((stepOnce padId boxHeight oracle)^[(decodeLoopAux padId boxHeight oracle fuel sts).2]
            sts).all (fun s => s.done) = true) := by
  intro fuel
  induction fuel with
  | zero =>
    intro sts
    refine ⟨Nat.le_refl 0, rfl, ?_, Or.inl rfl⟩
    intro k hk hk2
    simp only [decodeLoopAux] at hk2
    omega
  | succ fuel ih =>
    intro sts
    by_cases hall : (stepOnce padId boxHeight oracle sts).all (fun s => s.done) = true
    · have hred : decodeLoopAux padId boxHeight oracle (fuel + 1) sts =
          (stepOnce padId boxHeight oracle sts, 1) := by
        simp [decodeLoopAux, hall]
      rw [hred]
      refine ⟨by omega, by simp, ?_, Or.inr (by simpa using hall)⟩
      intro k hk hk2
      omega
    · have hred : decodeLoopAux padId boxHeight oracle (fuel + 1) sts =
          ((decodeLoopAux padId boxHeight oracle fuel (stepOnce padId boxHeight oracle sts)).1,
            (decodeLoopAux padId boxHeight oracle fuel
              (stepOnce padId boxHeight oracle sts)).2 + 1) := by
        simp [decodeLoopAux, hall]
      rw [hred]
      rcases ih (stepOnce padId boxHeight oracle sts) with ⟨h1, h2, h3, h4⟩
      refine ⟨by omega, ?_, ?_, ?_⟩
      · simpa [Function.iterate_succ_apply] using h2
      · intro k hk hk2
        simp only at hk2
        rcases Nat.lt_or_ge 1 k with hk1 | hk1
        · have hk3 : k - 1 < (decodeLoopAux padId boxHeight oracle fuel
              (stepOnce padId boxHeight oracle sts)).2 := by omega
          have := h3 (k - 1) (by omega) hk3
          have he : (stepOnce padId boxHeight oracle)^[k - 1]
              (stepOnce padId boxHeight oracle sts) =
              (stepOnce padId boxHeight oracle)^[k] sts := by
            rw [← Function.iterate_succ_apply]
            congr 1
            omega
          rwa [he] at this
        · have hk0 : k = 1 := by omega
          subst hk0
          simp only [Function.iterate_one]
          exact Bool.not_eq_true _ ▸ hall
      · rcases h4 with h | h
        · exact Or.inl (by simp [h])
        · refine Or.inr ?_
          simpa [Function.iterate_succ_apply] using h

/-- C7 — The decoding loop always terminates: it performs at most
`ORDER_MAX_BOXES` oracle steps; its final states are exactly the step
function iterated that many times (so at the cap, still-active samples keep
whatever predictions they accumulated); it never continues past a state in
which every sample is done; and it stops only at the fuel cap or at an
all-done state. -/
theorem claim_C7 (padId boxHeight maxBoxes : ℕ) (oracle : StepOracle) (sts : List SampleSt) :
    (decodeLoopAux padId boxHeight oracle maxBoxes sts).2 ≤ maxBoxes ∧
    (decodeLoopAux padId boxHeight oracle maxBoxes sts).1 =
      (stepOnce padId boxHeight oracle)^[(decodeLoopAux padId boxHeight oracle maxBoxes sts).2]
        sts ∧
    (∀ k, 0 < k → k < (decodeLoopAux padId boxHeight oracle maxBoxes sts).2 →
      ((stepOnce padId boxHeight oracle)^[k] sts).all (fun s => s.done) = false) ∧
    ((decodeLoopAux padId boxHeight oracle maxBoxes sts).2 = maxBoxes ∨
      ((stepOnce padId boxHeight oracle)^[(decodeLoopAux padId boxHeight oracle maxBoxes sts).2]
          sts).all (fun s => s.done) = true) :=
  decodeLoop_spec padId boxHeight oracle maxBoxes sts

/-- Witness for C7: the concrete single-sample run of `oracleC1` stops after
4 steps, within its cap of 10, at an all-done state. -/
theorem claim_C7_witness :
    (decodeLoopAux 0 1 oracleC1 10 [initState]).2 ≤ 10 ∧
      ((stepOnce 0 1 oracleC1)^[(decodeLoopAux 0 1 oracleC1 10 [initState]).2]
          [initState]).all (fun s => s.done) = true :=
  ⟨(claim_C7 0 1 10 oracleC1 [initState]).1,
    ((claim_C7 0 1 10 oracleC1 [initState]).2.2.2).resolve_left (by decide)⟩

/-! ## Claim C1 -/

/-- C1 — code-bug evidence.  Running the embedded loop on `oracleC1`
(`token_pad_id = 0`, `box_size["height"] = 1`): the final predictions are
`[1, 0, 1]`, so box slot 1 appears twice in `predicted_indices`, violating
the at-most-once invariant; and at step 1 the code's selection (arg-max of
the unmasked `logits[j]`, namely 1) differs from the claim's selection
(arg-max after masking the already-predicted indices, namely 2), because
line 83 arg-maxes `logits[j]` instead of the masked `new_logits`. -/
theorem claim_C1_code_bug :
    ((decodeLoopAux 0 1 oracleC1 10 [initState]).1.map (fun s => s.preds) = [[1, 0, 1]]) ∧
    ¬ ([1, 0, 1] : List ℤ).Nodup ∧
    (oracleC1 ((stepOnce 0 1 oracleC1 [initState]).map (fun s => s.fed)) = [[0, 5, 1, 0]]) ∧
    ((stepOnce 0 1 oracleC1 [initState]).map (fun s => s.preds) = [[1]]) ∧
    argmaxIdx [0, 5, 1, 0] = 1 ∧
    argmaxIdx (maskedLogits [1] [0, 5, 1, 0]) = 2 := by
  refine ⟨by decide, by decide, by decide, by decide, by decide, ?_⟩
  decide

/-! ## Claim C3 -/

/-- C3 counterexample — with `oracleC3` (`token_pad_id = 0`,
`box_size["height"] = 1`), after step 1 sample 0 is DONE with empty
predictions while sample 1 is still active; yet the loop's final state gives
sample 0 the prediction list `[0]`: a DONE sample's predicted-index sequence
received another entry at a later step, so its state did not stay
unchanged. -/
theorem claim_C3_counterexample :
    ((stepOnce 0 1 oracleC3 (List.replicate 2 initState)).map
        (fun s => (s.preds, s.done)) = [([], true), ([0], false)]) ∧
    ((decodeLoopAux 0 1 oracleC3 10 (List.replicate 2 initState)).1.map
        (fun s => s.preds) = [[0], [0, 0]]) := by
  constructor
  · decide
  · decide

theorem batchStep_length (padId boxHeight : ℕ) :
    ∀ (lgs : List (List ℤ)) (sts : List SampleSt),
      (batchStep padId boxHeight lgs sts).length = sts.length := by
  intro lgs
  induction lgs with
  | nil => intro sts; simp [batchStep]
  | cons lg lgs ih =>
    intro sts
    cases sts with
    | nil => simp [batchStep]
    | cons st sts => simp [batchStep, ih]

theorem batchStep_getD (padId boxHeight : ℕ) :
    ∀ (lgs : List (List ℤ)) (sts : List SampleSt) (j : ℕ), j < sts.length →
      (batchStep padId boxHeight lgs sts).getD j initState =
        if j < lgs.length then
          sampleStep padId boxHeight (lgs.getD j []) (sts.getD j initState)
        else sts.getD j initState := by
  intro lgs
  induction lgs with
  | nil =>
    intro sts j hj
    simp [batchStep]
  | cons lg lgs ih =>
    intro sts j hj
    cases sts with
    | nil => simp at hj
    | cons st sts =>
      cases j with
      | zero => simp [batchStep]
      | succ j =>
        have hj' : j < sts.length := by simpa using hj
        simp only [batchStep, List.getD_cons_succ, List.length_cons]
        rw [ih sts j hj']
        by_cases hl : j < lgs.length
        · rw [if_pos hl, if_pos (by omega)]
        · rw [if_neg hl, if_neg (by omega)]

theorem sampleStep_done_mono (padId boxHeight : ℕ) (lg : List ℤ) (st : SampleSt)
    (h : st.done = true) : (sampleStep padId boxHeight lg st).done = true := by
  simp only [sampleStep]
  by_cases hp : argmaxIdx lg = padId <;> simp [hp, h]

theorem batchStep_done_mono (padId boxHeight : ℕ) (lgs : List (List ℤ)) (sts : List SampleSt)
    (j : ℕ) (h : (sts.getD j initState).done = true) :
    ((batchStep padId boxHeight lgs sts).getD j initState).done = true := by
  by_cases hj : j < sts.length
  · rw [batchStep_getD padId boxHeight lgs sts j hj]
    by_cases hl : j < lgs.length
    · rw [if_pos hl]
      exact sampleStep_done_mono _ _ _ _ h
    · rw [if_neg hl]
      exact h
  · have h2 : sts.getD j initState = initState := List.getD_eq_default _ _ (by omega)
    rw [h2] at h
    simp [initState] at h

/-- C3 (amended) — per decoding step: once a sample is DONE its flag never
reverts (also across any number of loop iterations), but the loop keeps
processing it, and a DONE sample's prediction list is left unchanged by a
step if and only if the arg-max of its logits row at that step equals
`token_pad_id`; whenever that arg-max is a non-terminator the DONE sample's
predicted-index sequence receives a new entry. -/
theorem claim_C3_amended :
    (∀ (padId boxHeight : ℕ) (lgs : List (List ℤ)) (sts : List SampleSt) (j : ℕ),
      j < sts.length → j < lgs.length → (sts.getD j initState).done = true →
      ((batchStep padId boxHeight lgs sts).getD j initState).done = true ∧
      (((batchStep padId boxHeight lgs sts).getD j initState).preds =
          (sts.getD j initState).preds ↔ argmaxIdx (lgs.getD j []) = padId)) ∧
    (∀ (padId boxHeight : ℕ) (oracle : StepOracle) (sts : List SampleSt) (j k : ℕ),
      (sts.getD j initState).done = true →
      (((stepOnce padId boxHeight oracle)^[k] sts).getD j initState).done = true) := by
  constructor
  · intro padId boxHeight lgs sts j hj hl hd
    rw [batchStep_getD padId boxHeight lgs sts j hj, if_pos hl]
    simp only [sampleStep]
    by_cases hp : argmaxIdx (lgs.getD j []) = padId
    · rw [if_pos hp]
      exact ⟨rfl, iff_of_true rfl hp⟩
    · rw [if_neg hp]
      refine ⟨hd, ?_⟩
      constructor
      · intro h
        exfalso
        have := congrArg List.length h
        simp at this
      · intro h
        exact absurd h hp
  · intro padId boxHeight oracle sts j k hd
    induction k with
    | zero => simpa using hd
    | succ k ih =>
      rw [Function.iterate_succ_apply']
      exact batchStep_done_mono _ _ _ _ _ ih

/-- Witness for the amended C3: a DONE sample whose next-step arg-max is a
non-terminator keeps its done flag but its prediction list changes. -/
theorem claim_C3_amended_witness :
    ((batchStep 0 1 [[0, 5]] [SampleSt.mk [] [0] true]).getD 0 initState).done = true ∧
      (((batchStep 0 1 [[0, 5]] [SampleSt.mk [] [0] true]).getD 0 initState).preds =
          (([SampleSt.mk [] [0] true] : List SampleSt).getD 0 initState).preds ↔
        argmaxIdx (([[0, 5]] : List (List ℤ)).getD 0 []) = 0) :=
  claim_C3_amended.1 0 1 [[0, 5]] [SampleSt.mk [] [0] true] 0 (by decide) (by decide) (by decide)

/-! ## Theory of the structural reorder -/

theorem structuralReorder_eq {α : Type} (b : List α) (l : List String) (r : List ℕ) :
    structuralReorder b l r =
      ((finalRows b l r).map (fun x => x.box), (finalRows b l r).map (fun x => x.rank)) :=
  rfl

theorem posOf_append_of_mem {β : Type} [DecidableEq β] {x : β} {l1 : List β} (l2 : List β)
    (h : x ∈ l1) : posOf x (l1 ++ l2) = posOf x l1 := by
  induction l1 with
  | nil => cases h
  | cons a t ih =>
    by_cases hax : a = x
    · subst hax
      rw [List.cons_append, posOf_cons_self, posOf_cons_self]
    · have hxt : x ∈ t := by
        rcases List.mem_cons.mp h with rfl | hh
        · exact absurd rfl hax
        · exact hh
      rw [List.cons_append, posOf_cons_ne _ hax, posOf_cons_ne _ hax, ih hxt]

theorem posOf_append_of_not_mem {β : Type} [DecidableEq β] {x : β} {l1 : List β} (l2 : List β)
    (h : x ∉ l1) : posOf x (l1 ++ l2) = l1.length + posOf x l2 := by
  induction l1 with
  | nil => simp
  | cons a t ih =>
    have hax : a ≠ x := fun e => h (e ▸ List.mem_cons_self a t)
    have hxt : x ∉ t := fun e => h (List.mem_cons_of_mem a e)
    rw [List.cons_append, posOf_cons_ne _ hax, ih hxt, List.length_cons]
    omega

theorem sublist_pair_posOf_lt {β : Type} [DecidableEq β] {x y : β} {S : List β}
    (hnd : S.Nodup) (h : List.Sublist [x, y] S) : posOf x S < posOf y S := by
  rcases sublist_pair_exists_get h with ⟨p, q, hpq, hx, hy⟩
  rw [← hx, ← hy, posOf_get hnd p, posOf_get hnd q]
  exact hpq

theorem posOf_filter_lt {β : Type} [DecidableEq β] {x y : β} {S : List β} (hnd : S.Nodup)
    (p : β → Bool) (hx : x ∈ S) (hy : y ∈ S) (hpx : p x = true) (hpy : p y = true)
    (hlt : posOf x S < posOf y S) :
    posOf x (S.filter p) < posOf y (S.filter p) := by
  rcases posOf_spec hx with ⟨hx1, hx2⟩
  rcases posOf_spec hy with ⟨hy1, hy2⟩
  have hsub : List.Sublist [x, y] S := by
    have h2 := pair_get_sublist hlt hx1 hy1
    rw [hx2, hy2] at h2
    exact h2
  have hsubf : List.Sublist [x, y] (S.filter p) := by
    have h3 := List.Sublist.filter p hsub
    simpa [List.filter_cons, hpx, hpy] using h3
  exact sublist_pair_posOf_lt (hnd.filter p) hsubf

theorem combinedRows_length {α : Type} (b : List α) (l : List String) (r : List ℕ)
    (hl : l.length = b.length) (hr : r.length = b.length) :
    (combinedRows b l r).length = b.length := by
  simp [combinedRows, hl, hr]

theorem combinedRows_get {α : Type} (b : List α) (l : List String) (r : List ℕ)
    (hl : l.length = b.length) (hr : r.length = b.length) (i : ℕ) (hib : i < b.length)
    (h2 : i < (combinedRows b l r).length) :
    (combinedRows b l r).get ⟨i, h2⟩ =
      SRow.mk i (b.get ⟨i, hib⟩) (l.get ⟨i, hl ▸ hib⟩) (r.get ⟨i, hr ▸ hib⟩) := by
  simp only [combinedRows, List.get_eq_getElem, List.getElem_map, List.getElem_enum,
    List.getElem_zip]

theorem combinedRows_map_idx {α : Type} (b : List α) (l : List String) (r : List ℕ) :
    (combinedRows b l r).map (fun x => x.idx) =
      List.range (b.zip (l.zip r)).length := by
  rw [combinedRows, List.map_map]
  have : ((fun x : SRow α => x.idx) ∘ fun p : ℕ × (α × String × ℕ) =>
      SRow.mk p.1 p.2.1 p.2.2.1 p.2.2.2) = Prod.fst := rfl
  rw [this, List.enum_map_fst]

theorem combinedRows_nodup {α : Type} (b : List α) (l : List String) (r : List ℕ) :
    (combinedRows b l r).Nodup := by
  have := combinedRows_map_idx b l r ▸ List.nodup_range (b.zip (l.zip r)).length
  exact this.of_map _

theorem rankSorted_perm {α : Type} (b : List α) (l : List String) (r : List ℕ) :
    List.Perm (rankSorted b l r) (combinedRows b l r) :=
  List.perm_insertionSort _ _

theorem rankSorted_nodup {α : Type} (b : List α) (l : List String) (r : List ℕ) :
    (rankSorted b l r).Nodup :=
  (rankSorted_perm b l r).nodup_iff.mpr (combinedRows_nodup b l r)

theorem rankSorted_pairwise {α : Type} (b : List α) (l : List String) (r : List ℕ) :
    (rankSorted b l r).Pairwise (fun x y : SRow α => x.rank ≤ y.rank) := by
  haveI : IsTotal (SRow α) (fun x y : SRow α => x.rank ≤ y.rank) :=
    ⟨fun a c => Nat.le_total a.rank c.rank⟩
  haveI : IsTrans (SRow α) (fun x y : SRow α => x.rank ≤ y.rank) :=
    ⟨fun _ _ _ hab hbc => Nat.le_trans hab hbc⟩
  exact List.sorted_insertionSort _ _

theorem concatRows_perm {α : Type} (b : List α) (l : List String) (r : List ℕ) :
    List.Perm (concatRows b l r) (rankSorted b l r) := by
  set L := rankSorted b l r with hL
  have hsplit1 := List.filter_append_perm
    (fun row : SRow α => decide (row.label = "Page-header")) L
  have hsplit2 := List.filter_append_perm
    (fun row : SRow α => ! decide (row.label = "Page-footer"))
    (L.filter (fun row : SRow α => ! decide (row.label = "Page-header")))
  have he1 : (L.filter (fun row : SRow α => ! decide (row.label = "Page-header"))).filter
      (fun row : SRow α => ! decide (row.label = "Page-footer")) =
      L.filter (fun row => row.label ≠ "Page-header" ∧ row.label ≠ "Page-footer") := by
    rw [List.filter_filter]
    apply List.filter_congr
    intro x _
    simp only [Bool.and_eq_true, Bool.not_eq_true, decide_eq_false_iff_not,
      decide_eq_true_eq, Bool.decide_and, decide_not]
    rw [Bool.and_comm]
  have he2 : (L.filter (fun row : SRow α => ! decide (row.label = "Page-header"))).filter
      (fun row : SRow α => ! (! decide (row.label = "Page-footer"))) =
      L.filter (fun row => row.label = "Page-footer") := by
    rw [List.filter_filter]
    apply List.filter_congr
    intro x _
    simp only [Bool.not_not]
    by_cases hx : x.label = "Page-footer"
    · have hx2 : ¬ (x.label = "Page-header") := by
        rw [hx]
        decide
      simp [hx, hx2]
    · simp [hx]
  rw [he1] at hsplit2
  have he2' : (L.filter (fun row : SRow α => ! decide (row.label = "Page-header"))).filter
      (fun x => ! (fun row : SRow α => ! decide (row.label = "Page-footer")) x) =
      L.filter (fun row => row.label = "Page-footer") := he2
  rw [he2'] at hsplit2
  have hassoc : concatRows b l r =
      L.filter (fun row => row.label = "Page-header") ++
        (L.filter (fun row => row.label ≠ "Page-header" ∧ row.label ≠ "Page-footer") ++
          L.filter (fun row => row.label = "Page-footer")) := by
    rw [concatRows, List.append_assoc]
  rw [hassoc]
  refine List.Perm.trans (List.Perm.append_left _ hsplit2) ?_
  refine List.Perm.trans ?_ hsplit1
  apply List.Perm.append_right
  apply List.Perm.of_eq
  apply List.filter_congr
  intro x _
  simp

theorem concatRows_nodup {α : Type} (b : List α) (l : List String) (r : List ℕ) :
    (concatRows b l r).Nodup :=
  (concatRows_perm b l r).nodup_iff.mpr (rankSorted_nodup b l r)

theorem concatRows_map_idx_perm {α : Type} (b : List α) (l : List String) (r : List ℕ) :
    List.Perm ((concatRows b l r).map (fun x => x.idx))
      (List.range (b.zip (l.zip r)).length) := by
  have h1 : List.Perm (concatRows b l r) (combinedRows b l r) :=
    (concatRows_perm b l r).trans (rankSorted_perm b l r)
  have := h1.map (fun x : SRow α => x.idx)
  rwa [combinedRows_map_idx] at this

theorem concatRows_idx_nodup {α : Type} (b : List α) (l : List String) (r : List ℕ) :
    ((concatRows b l r).map (fun x => x.idx)).Nodup :=
  (concatRows_map_idx_perm b l r).nodup_iff.mpr (List.nodup_range _)

theorem concatRows_length {α : Type} (b : List α) (l : List String) (r : List ℕ)
    (hl : l.length = b.length) (hr : r.length = b.length) :
    (concatRows b l r).length = b.length := by
  rw [((concatRows_perm b l r).trans (rankSorted_perm b l r)).length_eq]
  exact combinedRows_length b l r hl hr

theorem reRanked_map_idx {α : Type} (b : List α) (l : List String) (r : List ℕ) :
    (reRanked b l r).map (fun x => x.idx) = (concatRows b l r).map (fun x => x.idx) := by
  rw [reRanked, List.map_map]
  have : ((fun x : SRow α => x.idx) ∘ fun p : ℕ × SRow α =>
      SRow.mk p.2.idx p.2.box p.2.label p.1) =
      ((fun x : SRow α => x.idx) ∘ Prod.snd) := rfl
  rw [this, ← List.map_map, List.enum_map_snd]

theorem reRanked_map_rank {α : Type} (b : List α) (l : List String) (r : List ℕ) :
    (reRanked b l r).map (fun x => x.rank) = List.range (concatRows b l r).length := by
  rw [reRanked, List.map_map]
  have : ((fun x : SRow α => x.rank) ∘ fun p : ℕ × SRow α =>
      SRow.mk p.2.idx p.2.box p.2.label p.1) = Prod.fst := rfl
  rw [this, List.enum_map_fst]

theorem reRanked_length {α : Type} (b : List α) (l : List String) (r : List ℕ) :
    (reRanked b l r).length = (concatRows b l r).length := by
  simp [reRanked]

theorem finalRows_perm {α : Type} (b : List α) (l : List String) (r : List ℕ) :
    List.Perm (finalRows b l r) (reRanked b l r) :=
  List.perm_insertionSort _ _

theorem finalRows_length {α : Type} (b : List α) (l : List String) (r : List ℕ)
    (hl : l.length = b.length) (hr : r.length = b.length) :
    (finalRows b l r).length = b.length := by
  rw [(finalRows_perm b l r).length_eq, reRanked_length]
  exact concatRows_length b l r hl hr

/-- The re-sort by original index lists the indices as `0, 1, …, n-1`. -/
theorem finalRows_map_idx {α : Type} (b : List α) (l : List String) (r : List ℕ)
    (hl : l.length = b.length) (hr : r.length = b.length) :
    (finalRows b l r).map (fun x => x.idx) = List.range b.length := by
  have hzl : (b.zip (l.zip r)).length = b.length := by simp [hl, hr]
  have hperm : List.Perm ((finalRows b l r).map (fun x => x.idx)) (List.range b.length) := by
    have h1 := (finalRows_perm b l r).map (fun x : SRow α => x.idx)
    rw [reRanked_map_idx] at h1
    exact h1.trans (hzl ▸ concatRows_map_idx_perm b l r)
  have hsorted : ((finalRows b l r).map (fun x => x.idx)).Sorted (· ≤ ·) := by
    haveI : IsTotal (SRow α) (fun x y : SRow α => x.idx ≤ y.idx) :=
      ⟨fun a c => Nat.le_total a.idx c.idx⟩
    haveI : IsTrans (SRow α) (fun x y : SRow α => x.idx ≤ y.idx) :=
      ⟨fun _ _ _ hab hbc => Nat.le_trans hab hbc⟩
    have hp : (finalRows b l r).Pairwise (fun x y : SRow α => x.idx ≤ y.idx) :=
      List.sorted_insertionSort _ _
    exact hp.map _ (fun _ _ h => h)
  exact List.eq_of_perm_of_sorted hperm hsorted (List.sorted_le_range b.length)

/-- The row carrying original index `i` in the final output: original box,
original label, and the new rank given by the position of that box's row in
the header/body/footer concatenation. -/
theorem finalRows_get {α : Type} [DecidableEq α] (b : List α) (l : List String) (r : List ℕ)
    (hl : l.length = b.length) (hr : r.length = b.length) (i : ℕ) (hib : i < b.length)
    (hF : i < (finalRows b l r).length) :
    (finalRows b l r).get ⟨i, hF⟩ =
      SRow.mk i (b.get ⟨i, hib⟩) (l.get ⟨i, hl ▸ hib⟩)
        (posOf (SRow.mk i (b.get ⟨i, hib⟩) (l.get ⟨i, hl ▸ hib⟩) (r.get ⟨i, hr ▸ hib⟩))
          (concatRows b l r)) := by
  set row_i : SRow α :=
    SRow.mk i (b.get ⟨i, hib⟩) (l.get ⟨i, hl ▸ hib⟩) (r.get ⟨i, hr ▸ hib⟩) with hrow
  -- the element at output position i has idx i
  have hidx : ((finalRows b l r).get ⟨i, hF⟩).idx = i := by
    have hmap := finalRows_map_idx b l r hl hr
    have := congrArg (fun t => t.getD i 0) hmap
    simp only [List.getD_eq_getElem?_getD] at this
    rw [List.getElem?_map] at this
    rw [List.getElem?_eq_getElem hF] at this
    rw [List.getElem?_range hib] at this
    simpa using this
  -- it is an element of reRanked
  have hmem : (finalRows b l r).get ⟨i, hF⟩ ∈ reRanked b l r :=
    (finalRows_perm b l r).subset ((finalRows b l r).get_mem _ _)
  -- row_i is an element of concatRows
  have hrowC : row_i ∈ concatRows b l r := by
    have h2 : i < (combinedRows b l r).length := by
      rw [combinedRows_length b l r hl hr]
      exact hib
    have := combinedRows_get b l r hl hr i hib h2
    have hmem2 : row_i ∈ combinedRows b l r := by
      rw [hrow, ← this]
      exact (combinedRows b l r).get_mem _ _
    exact ((concatRows_perm b l r).trans (rankSorted_perm b l r)).mem_iff.mpr hmem2
  -- decompose the reRanked element
  rcases List.mem_map.mp hmem with ⟨q, hqmem, hq⟩
  rcases mem_enum_eq_get hqmem with ⟨hq1, hq2⟩
  have hCget : (concatRows b l r).get ⟨q.1, hq1⟩ = row_i := by
    apply List.inj_on_of_nodup_map (concatRows_idx_nodup b l r)
    · exact (concatRows b l r).get_mem _ _
    · exact hrowC
    · have : ((concatRows b l r).get ⟨q.1, hq1⟩).idx = q.2.idx := by rw [← hq2]
      rw [this]
      have : q.2.idx = ((finalRows b l r).get ⟨i, hF⟩).idx := by rw [← hq]
      rw [this, hidx, hrow]
  have hqpos : q.1 = posOf row_i (concatRows b l r) := by
    have := posOf_get (concatRows_nodup b l r) ⟨q.1, hq1⟩
    rw [hCget] at this
    exact this.symm
  rw [← hq, hq2, hCget, hqpos, hrow]

theorem structuralReorder_fst {α : Type} (b : List α) (l : List String) (r : List ℕ)
    (hl : l.length = b.length) (hr : r.length = b.length) :
    (structuralReorder b l r).1 = b := by
  classical
  rw [structuralReorder_eq]
  apply List.ext_getElem
  · rw [List.length_map]
    exact finalRows_length b l r hl hr
  · intro i h1 h2
    have hF : i < (finalRows b l r).length := by
      rw [finalRows_length b l r hl hr]
      exact h2
    rw [List.getElem_map]
    have := finalRows_get b l r hl hr i h2 hF
    rw [List.get_eq_getElem] at this
    rw [this]
    rfl

theorem structuralReorder_snd_length {α : Type} (b : List α) (l : List String) (r : List ℕ)
    (hl : l.length = b.length) (hr : r.length = b.length) :
    (structuralReorder b l r).2.length = b.length := by
  rw [structuralReorder_eq]
  rw [List.length_map]
  exact finalRows_length b l r hl hr

/-- The final rank of original box `i` is the position of its row in the
header/body/footer concatenation. -/
theorem structuralReorder_snd_getD {α : Type} [DecidableEq α] (b : List α) (l : List String)
    (r : List ℕ) (hl : l.length = b.length) (hr : r.length = b.length) (i : ℕ)
    (hib : i < b.length) :
    (structuralReorder b l r).2.getD i 0 =
      posOf (SRow.mk i (b.get ⟨i, hib⟩) (l.get ⟨i, hl ▸ hib⟩) (r.get ⟨i, hr ▸ hib⟩))
        (concatRows b l r) := by
  rw [structuralReorder_eq]
  have hF : i < (finalRows b l r).length := by
    rw [finalRows_length b l r hl hr]
    exact hib
  have h2 : i < ((finalRows b l r).map (fun x => x.rank)).length := by
    rw [List.length_map]
    exact hF
  rw [List.getD_eq_getElem _ 0 h2, List.getElem_map]
  have := finalRows_get b l r hl hr i hib hF
  rw [List.get_eq_getElem] at this
  rw [this]

/-- The final ranks are a permutation of `0, …, N-1`. -/
theorem structuralReorder_snd_perm {α : Type} (b : List α) (l : List String) (r : List ℕ)
    (hl : l.length = b.length) (hr : r.length = b.length) :
    List.Perm (structuralReorder b l r).2 (List.range b.length) := by
  rw [structuralReorder_eq]
  have h1 := (finalRows_perm b l r).map (fun x : SRow α => x.rank)
  rw [reRanked_map_rank] at h1
  rw [concatRows_length b l r hl hr] at h1
  exact h1

/-- Rows with strictly smaller raw rank come earlier in the rank-sorted list. -/
theorem rankSorted_posOf_lt {α : Type} [DecidableEq α] (b : List α) (l : List String)
    (r : List ℕ) {x y : SRow α} (hx : x ∈ rankSorted b l r) (hy : y ∈ rankSorted b l r)
    (hrank : x.rank < y.rank) :
    posOf x (rankSorted b l r) < posOf y (rankSorted b l r) := by
  rcases posOf_spec hx with ⟨px, gx⟩
  rcases posOf_spec hy with ⟨py, gy⟩
  rcases Nat.lt_trichotomy (posOf x (rankSorted b l r)) (posOf y (rankSorted b l r)) with
    h | h | h
  · exact h
  · exfalso
    have : x = y := by
      rw [← gx, ← gy]
      congr 1
      exact Fin.mk_eq_mk.mpr h
    rw [this] at hrank
    omega
  · exfalso
    have hpw := List.pairwise_iff_get.mp (rankSorted_pairwise b l r)
      ⟨posOf y (rankSorted b l r), py⟩ ⟨posOf x (rankSorted b l r), px⟩ h
    rw [gx, gy] at hpw
    omega

theorem groupOf_eq_zero {s : String} : groupOf s = 0 ↔ s = "Page-header" := by
  unfold groupOf
  by_cases h1 : s = "Page-header"
  · simp [h1]
  · by_cases h2 : s = "Page-footer" <;> simp [h1, h2]

theorem groupOf_eq_two {s : String} : groupOf s = 2 ↔ s = "Page-footer" := by
  unfold groupOf
  by_cases h1 : s = "Page-header"
  · rw [h1]
    constructor
    · intro h
      simp at h
    · intro h
      exact absurd h.symm (by decide)
  · by_cases h2 : s = "Page-footer" <;> simp [h1, h2]

/-- In the concatenation, every header-labeled row precedes every row not
labeled header. -/
theorem posOf_concat_header_lt {α : Type} [DecidableEq α] (b : List α) (l : List String)
    (r : List ℕ) {x y : SRow α} (hx : x ∈ rankSorted b l r) (hy : y ∈ rankSorted b l r)
    (hxh : x.label = "Page-header") (hyh : y.label ≠ "Page-header") :
    posOf x (concatRows b l r) < posOf y (concatRows b l r) := by
  set L := rankSorted b l r with hLdef
  have hC : concatRows b l r =
      L.filter (fun row => row.label = "Page-header") ++
        (L.filter (fun row => row.label ≠ "Page-header" ∧ row.label ≠ "Page-footer") ++
          L.filter (fun row => row.label = "Page-footer")) := by
    rw [concatRows, List.append_assoc]
  have hxH : x ∈ L.filter (fun row => row.label = "Page-header") :=
    List.mem_filter.mpr ⟨hx, by simp [hxh]⟩
  have hyH : y ∉ L.filter (fun row => row.label = "Page-header") := by
    intro hmem
    exact hyh (by simpa using (List.mem_filter.mp hmem).2)
  rw [hC, posOf_append_of_mem _ hxH, posOf_append_of_not_mem _ hyH]
  rcases posOf_spec hxH with ⟨hlt, -⟩
  omega

/-- In the concatenation, every row not labeled footer precedes every
footer-labeled row. -/
theorem posOf_concat_footer_lt {α : Type} [DecidableEq α] (b : List α) (l : List String)
    (r : List ℕ) {x y : SRow α} (hx : x ∈ rankSorted b l r) (hy : y ∈ rankSorted b l r)
    (hxf : x.label = "Page-footer") (hyf : y.label ≠ "Page-footer") :
    posOf y (concatRows b l r) < posOf x (concatRows b l r) := by
  set L := rankSorted b l r with hLdef
  have hC : concatRows b l r =
      L.filter (fun row => row.label = "Page-header") ++
        (L.filter (fun row => row.label ≠ "Page-header" ∧ row.label ≠ "Page-footer") ++
          L.filter (fun row => row.label = "Page-footer")) := by
    rw [concatRows, List.append_assoc]
  have hxhdr : x.label ≠ "Page-header" := by
    rw [hxf]
    decide
  have hxH : x ∉ L.filter (fun row => row.label = "Page-header") := by
    intro hmem
    exact hxhdr (by simpa using (List.mem_filter.mp hmem).2)
  have hxB : x ∉ L.filter
      (fun row => row.label ≠ "Page-header" ∧ row.label ≠ "Page-footer") := by
    intro hmem
    have := (List.mem_filter.mp hmem).2
    simp only [decide_eq_true_eq] at this
    exact this.2 hxf
  have hxF : x ∈ L.filter (fun row => row.label = "Page-footer") :=
    List.mem_filter.mpr ⟨hx, by simp [hxf]⟩
  rw [hC, posOf_append_of_not_mem _ hxH, posOf_append_of_not_mem _ hxB]
  by_cases hyhdr : y.label = "Page-header"
  · have hyH : y ∈ L.filter (fun row => row.label = "Page-header") :=
      List.mem_filter.mpr ⟨hy, by simp [hyhdr]⟩
    rw [posOf_append_of_mem _ hyH]
    rcases posOf_spec hyH with ⟨hlt, -⟩
    omega
  · have hyB : y ∈ L.filter
        (fun row => row.label ≠ "Page-header" ∧ row.label ≠ "Page-footer") :=
      List.mem_filter.mpr ⟨hy, by simp [hyhdr, hyf]⟩
    have hyH : y ∉ L.filter (fun row => row.label = "Page-header") := by
      intro hmem
      exact hyhdr (by simpa using (List.mem_filter.mp hmem).2)
    rw [posOf_append_of_not_mem _ hyH, posOf_append_of_mem _ hyB]
    rcases posOf_spec hyB with ⟨hlt, -⟩
    omega

/-- Within one of the three groups, a strictly smaller raw rank gives a
strictly smaller position in the concatenation. -/
theorem posOf_concat_group_lt {α : Type} [DecidableEq α] (b : List α) (l : List String)
    (r : List ℕ) {x y : SRow α} (hx : x ∈ rankSorted b l r) (hy : y ∈ rankSorted b l r)
    (hg : groupOf x.label = groupOf y.label) (hrank : x.rank < y.rank) :
    posOf x (concatRows b l r) < posOf y (concatRows b l r) := by
  set L := rankSorted b l r with hLdef
  have hC : concatRows b l r =
      L.filter (fun row => row.label = "Page-header") ++
        (L.filter (fun row => row.label ≠ "Page-header" ∧ row.label ≠ "Page-footer") ++
          L.filter (fun row => row.label = "Page-footer")) := by
    rw [concatRows, List.append_assoc]
  have hLpos : posOf x L < posOf y L := rankSorted_posOf_lt b l r hx hy hrank
  by_cases hxh : x.label = "Page-header"
  · have hyh : y.label = "Page-header" := by
      rw [← groupOf_eq_zero, ← hg, groupOf_eq_zero]
      exact hxh
    have hxH : x ∈ L.filter (fun row => row.label = "Page-header") :=
      List.mem_filter.mpr ⟨hx, by simp [hxh]⟩
    have hyH : y ∈ L.filter (fun row => row.label = "Page-header") :=
      List.mem_filter.mpr ⟨hy, by simp [hyh]⟩
    rw [hC, posOf_append_of_mem _ hxH, posOf_append_of_mem _ hyH]
    exact posOf_filter_lt (rankSorted_nodup b l r) _ hx hy (by simp [hxh]) (by simp [hyh])
      hLpos
  · by_cases hxf : x.label = "Page-footer"
    · have hyf : y.label = "Page-footer" := by
        rw [← groupOf_eq_two, ← hg, groupOf_eq_two]
        exact hxf
      have hyh : y.label ≠ "Page-header" := by
        rw [hyf]
        decide
      have hxH : x ∉ L.filter (fun row => row.label = "Page-header") := by
        intro hmem
        exact hxh (by simpa using (List.mem_filter.mp hmem).2)
      have hyH : y ∉ L.filter (fun row => row.label = "Page-header") := by
        intro hmem
        exact hyh (by simpa using (List.mem_filter.mp hmem).2)
      have hxB : x ∉ L.filter
          (fun row => row.label ≠ "Page-header" ∧ row.label ≠ "Page-footer") := by
        intro hmem
        have := (List.mem_filter.mp hmem).2
        simp only [decide_eq_true_eq] at this
        exact this.2 hxf
      have hyB : y ∉ L.filter
          (fun row => row.label ≠ "Page-header" ∧ row.label ≠ "Page-footer") := by
        intro hmem
        have := (List.mem_filter.mp hmem).2
        simp only [decide_eq_true_eq] at this
        exact this.2 hyf
      rw [hC, posOf_append_of_not_mem _ hxH, posOf_append_of_not_mem _ hyH,
        posOf_append_of_not_mem _ hxB, posOf_append_of_not_mem _ hyB]
      have hflt := posOf_filter_lt (rankSorted_nodup b l r)
        (fun row : SRow α => decide (row.label = "Page-footer")) hx hy
        (by simp [hxf]) (by simp [hyf]) hLpos
      rw [← hLdef] at hflt
      omega
    · have hg1 : groupOf x.label = 1 := by
        unfold groupOf
        simp [hxh, hxf]
      have hyh : y.label ≠ "Page-header" := by
        intro h
        have : groupOf y.label = 0 := groupOf_eq_zero.mpr h
        omega
      have hyf : y.label ≠ "Page-footer" := by
        intro h
        have : groupOf y.label = 2 := groupOf_eq_two.mpr h
        omega
      have hxH : x ∉ L.filter (fun row => row.label = "Page-header") := by
        intro hmem
        exact hxh (by simpa using (List.mem_filter.mp hmem).2)
      have hyH : y ∉ L.filter (fun row => row.label = "Page-header") := by
        intro hmem
        exact hyh (by simpa using (List.mem_filter.mp hmem).2)
      have hxB : x ∈ L.filter
          (fun row => row.label ≠ "Page-header" ∧ row.label ≠ "Page-footer") :=
        List.mem_filter.mpr ⟨hx, by simp [hxh, hxf]⟩
      have hyB : y ∈ L.filter
          (fun row => row.label ≠ "Page-header" ∧ row.label ≠ "Page-footer") :=
        List.mem_filter.mpr ⟨hy, by simp [hyh, hyf]⟩
      rw [hC, posOf_append_of_not_mem _ hxH, posOf_append_of_not_mem _ hyH,
        posOf_append_of_mem _ hxB, posOf_append_of_mem _ hyB]
      have hflt := posOf_filter_lt (rankSorted_nodup b l r)
        (fun row : SRow α => decide (row.label ≠ "Page-header" ∧ row.label ≠ "Page-footer"))
        hx hy (by simp [hxh, hxf]) (by simp [hyh, hyf]) hLpos
      rw [← hLdef] at hflt
      omega

theorem rowAt_mem_rankSorted {α : Type} (b : List α) (l : List String) (r : List ℕ)
    (hl : l.length = b.length) (hr : r.length = b.length) (i : ℕ) (hib : i < b.length) :
    SRow.mk i (b.get ⟨i, hib⟩) (l.get ⟨i, hl ▸ hib⟩) (r.get ⟨i, hr ▸ hib⟩) ∈
      rankSorted b l r := by
  have h2 : i < (combinedRows b l r).length := by
    rw [combinedRows_length b l r hl hr]
    exact hib
  have := combinedRows_get b l r hl hr i hib h2
  rw [← this]
  exact (rankSorted_perm b l r).mem_iff.mpr ((combinedRows b l r).get_mem _ _)

/-! ## Claim C5 -/

/-- C5 — With labels supplied, Structural Reordering returns the boxes in
their original array order; every box labeled exactly "Page-header" gets a
final rank strictly below every non-header box's; every box labeled exactly
"Page-footer" gets a final rank strictly above every non-footer box's; and
within each of the three groups (headers, body, footers), strict raw-rank
order is preserved in the final ranks. -/
theorem claim_C5 {α : Type} (row_bboxes : List α) (row_label : List String) (ranks : List ℕ)
    (hl : row_label.length = row_bboxes.length) (hr : ranks.length = row_bboxes.length) :
    (structuralReorder row_bboxes row_label ranks).1 = row_bboxes ∧
    (∀ i j, i < row_bboxes.length → j < row_bboxes.length →
      row_label.getD i "" = "Page-header" → row_label.getD j "" ≠ "Page-header" →
      (structuralReorder row_bboxes row_label ranks).2.getD i 0 <
        (structuralReorder row_bboxes row_label ranks).2.getD j 0) ∧
    (∀ i j, i < row_bboxes.length → j < row_bboxes.length →
      row_label.getD i "" = "Page-footer" → row_label.getD j "" ≠ "Page-footer" →
      (structuralReorder row_bboxes row_label ranks).2.getD j 0 <
        (structuralReorder row_bboxes row_label ranks).2.getD i 0) ∧
    (∀ i j, i < row_bboxes.length → j < row_bboxes.length →
      groupOf (row_label.getD i "") = groupOf (row_label.getD j "") →
      ranks.getD i 0 < ranks.getD j 0 →
      (structuralReorder row_bboxes row_label ranks).2.getD i 0 <
        (structuralReorder row_bboxes row_label ranks).2.getD j 0) := by
  classical
  refine ⟨structuralReorder_fst row_bboxes row_label ranks hl hr, ?_, ?_, ?_⟩
  · intro i j hi hj hlbl1 hlbl2
    have ei : row_label.get ⟨i, hl ▸ hi⟩ = row_label.getD i "" :=
      (List.getD_eq_getElem _ _ (hl ▸ hi)).symm
    have ej : row_label.get ⟨j, hl ▸ hj⟩ = row_label.getD j "" :=
      (List.getD_eq_getElem _ _ (hl ▸ hj)).symm
    rw [structuralReorder_snd_getD row_bboxes row_label ranks hl hr i hi,
      structuralReorder_snd_getD row_bboxes row_label ranks hl hr j hj]
    exact posOf_concat_header_lt row_bboxes row_label ranks
      (rowAt_mem_rankSorted row_bboxes row_label ranks hl hr i hi)
      (rowAt_mem_rankSorted row_bboxes row_label ranks hl hr j hj)
      (by show row_label.get ⟨i, hl ▸ hi⟩ = "Page-header"
          rw [ei]
          exact hlbl1)
      (by show row_label.get ⟨j, hl ▸ hj⟩ ≠ "Page-header"
          rw [ej]
          exact hlbl2)
  · intro i j hi hj hlbl1 hlbl2
    have ei : row_label.get ⟨i, hl ▸ hi⟩ = row_label.getD i "" :=
      (List.getD_eq_getElem _ _ (hl ▸ hi)).symm
    have ej : row_label.get ⟨j, hl ▸ hj⟩ = row_label.getD j "" :=
      (List.getD_eq_getElem _ _ (hl ▸ hj)).symm
    rw [structuralReorder_snd_getD row_bboxes row_label ranks hl hr i hi,
      structuralReorder_snd_getD row_bboxes row_label ranks hl hr j hj]
    exact posOf_concat_footer_lt row_bboxes row_label ranks
      (rowAt_mem_rankSorted row_bboxes row_label ranks hl hr i hi)
      (rowAt_mem_rankSorted row_bboxes row_label ranks hl hr j hj)
      (by show row_label.get ⟨i, hl ▸ hi⟩ = "Page-footer"
          rw [ei]
          exact hlbl1)
      (by show row_label.get ⟨j, hl ▸ hj⟩ ≠ "Page-footer"
          rw [ej]
          exact hlbl2)
  · intro i j hi hj hg hrank
    have ei : row_label.get ⟨i, hl ▸ hi⟩ = row_label.getD i "" :=
      (List.getD_eq_getElem _ _ (hl ▸ hi)).symm
    have ej : row_label.get ⟨j, hl ▸ hj⟩ = row_label.getD j "" :=
      (List.getD_eq_getElem _ _ (hl ▸ hj)).symm
    have eri : ranks.get ⟨i, hr ▸ hi⟩ = ranks.getD i 0 :=
      (List.getD_eq_getElem _ _ (hr ▸ hi)).symm
    have erj : ranks.get ⟨j, hr ▸ hj⟩ = ranks.getD j 0 :=
      (List.getD_eq_getElem _ _ (hr ▸ hj)).symm
    rw [structuralReorder_snd_getD row_bboxes row_label ranks hl hr i hi,
      structuralReorder_snd_getD row_bboxes row_label ranks hl hr j hj]
    refine posOf_concat_group_lt row_bboxes row_label ranks
      (rowAt_mem_rankSorted row_bboxes row_label ranks hl hr i hi)
      (rowAt_mem_rankSorted row_bboxes row_label ranks hl hr j hj) ?_ ?_
    · show groupOf (row_label.get ⟨i, hl ▸ hi⟩) = groupOf (row_label.get ⟨j, hl ▸ hj⟩)
      rw [ei, ej]
      exact hg
    · show ranks.get ⟨i, hr ▸ hi⟩ < ranks.get ⟨j, hr ▸ hj⟩
      rw [eri, erj]
      exact hrank

/-- Witness for C5 at the spec's example: labels
`["Page-header", "body", "Page-footer", "body"]` with raw ranks `[3,0,1,2]`;
the header box must rank below box 1 and within-body order is preserved. -/
theorem claim_C5_witness :
    (structuralReorder ([10, 20, 30, 40] : List ℕ)
        ["Page-header", "body", "Page-footer", "body"] [3, 0, 1, 2]).1 = [10, 20, 30, 40] ∧
    (structuralReorder ([10, 20, 30, 40] : List ℕ)
        ["Page-header", "body", "Page-footer", "body"] [3, 0, 1, 2]).2.getD 0 0 <
      (structuralReorder ([10, 20, 30, 40] : List ℕ)
        ["Page-header", "body", "Page-footer", "body"] [3, 0, 1, 2]).2.getD 1 0 ∧
    (structuralReorder ([10, 20, 30, 40] : List ℕ)
        ["Page-header", "body", "Page-footer", "body"] [3, 0, 1, 2]).2.getD 1 0 <
      (structuralReorder ([10, 20, 30, 40] : List ℕ)
        ["Page-header", "body", "Page-footer", "body"] [3, 0, 1, 2]).2.getD 2 0 ∧
    (structuralReorder ([10, 20, 30, 40] : List ℕ)
        ["Page-header", "body", "Page-footer", "body"] [3, 0, 1, 2]).2.getD 1 0 <
      (structuralReorder ([10, 20, 30, 40] : List ℕ)
        ["Page-header", "body", "Page-footer", "body"] [3, 0, 1, 2]).2.getD 3 0 :=
  ⟨(claim_C5 [10, 20, 30, 40] ["Page-header", "body", "Page-footer", "body"] [3, 0, 1, 2]
      (by decide) (by decide)).1,
    (claim_C5 [10, 20, 30, 40] ["Page-header", "body", "Page-footer", "body"] [3, 0, 1, 2]
      (by decide) (by decide)).2.1 0 1 (by decide) (by decide) (by decide) (by decide),
    (claim_C5 [10, 20, 30, 40] ["Page-header", "body", "Page-footer", "body"] [3, 0, 1, 2]
      (by decide) (by decide)).2.2.1 2 1 (by decide) (by decide) (by decide) (by decide),
    (claim_C5 [10, 20, 30, 40] ["Page-header", "body", "Page-footer", "body"] [3, 0, 1, 2]
      (by decide) (by decide)).2.2.2 1 3 (by decide) (by decide) (by decide) (by decide)⟩

/-! ## Theory of the batching pipeline -/

theorem getD_append_lt {β : Type} (l1 l2 : List β) (k : ℕ) (h : k < l1.length) (d : β) :
    (l1 ++ l2).getD k d = l1.getD k d := by
  rw [List.getD_eq_getElem?_getD, List.getD_eq_getElem?_getD, List.getElem?_append_left h]

theorem getD_append_ge {β : Type} (l1 l2 : List β) (k : ℕ) (h : l1.length ≤ k) (d : β) :
    (l1 ++ l2).getD k d = l2.getD (k - l1.length) d := by
  rw [List.getD_eq_getElem?_getD, List.getD_eq_getElem?_getD, List.getElem?_append_right h]

theorem chunkListGo_congr {β : Type} (bs : ℕ) (hbs : 1 ≤ bs) :
    ∀ (fuel1 : ℕ) (fuel2 : ℕ) (l : List β), l.length ≤ fuel1 → l.length ≤ fuel2 →
      chunkListGo bs fuel1 l = chunkListGo bs fuel2 l := by
  intro fuel1
  induction fuel1 with
  | zero =>
    intro fuel2 l h1 h2
    have : l = [] := List.length_eq_zero.mp (by omega)
    subst this
    cases fuel2 <;> rfl
  | succ fuel1 ih =>
    intro fuel2 l h1 h2
    cases l with
    | nil => cases fuel2 <;> rfl
    | cons x xs =>
      cases fuel2 with
      | zero => simp at h2
      | succ fuel2 =>
        simp only [List.length_cons] at h1 h2
        simp only [chunkListGo]
        rw [ih fuel2 ((x :: xs).drop bs) (by simp only [List.length_drop, List.length_cons]; omega)
          (by simp only [List.length_drop, List.length_cons]; omega)]

theorem chunkList_cons {β : Type} (bs : ℕ) (hbs : 1 ≤ bs) (l : List β) (hne : l ≠ []) :
    chunkList bs l = l.take bs :: chunkList bs (l.drop bs) := by
  cases l with
  | nil => exact absurd rfl hne
  | cons x xs =>
    show chunkListGo bs (xs.length + 1) (x :: xs) = _
    simp only [chunkListGo]
    rw [chunkListGo_congr bs hbs xs.length ((x :: xs).drop bs).length ((x :: xs).drop bs)
      (by simp only [List.length_drop, List.length_cons]; omega) (Nat.le_refl _)]
    rfl

theorem stepOnce_length (padId boxHeight : ℕ) (oracle : StepOracle) (sts : List SampleSt) :
    (stepOnce padId boxHeight oracle sts).length = sts.length :=
  batchStep_length padId boxHeight _ sts

theorem iterate_stepOnce_length (padId boxHeight : ℕ) (oracle : StepOracle)
    (sts : List SampleSt) : ∀ (k : ℕ),
    ((stepOnce padId boxHeight oracle)^[k] sts).length = sts.length := by
  intro k
  induction k with
  | zero => rfl
  | succ k ih =>
    rw [Function.iterate_succ_apply', stepOnce_length]
    exact ih

theorem decodeBatchPreds_length (padId boxHeight : ℕ) (oracle : StepOracle)
    (maxBoxes n : ℕ) : (decodeBatchPreds padId boxHeight oracle maxBoxes n).length = n := by
  rw [decodeBatchPreds, List.length_map,
    (decodeLoop_spec padId boxHeight oracle maxBoxes (List.replicate n initState)).2.1,
    iterate_stepOnce_length, List.length_replicate]

theorem batchPredsOf_length {α : Type} (padId boxHeight : ℕ) (oracle : BatchOracle α)
    (maxBoxes : ℕ) (batch : List (SampleIn α)) :
    (batchPredsOf padId boxHeight oracle maxBoxes batch).length = batch.length :=
  decodeBatchPreds_length _ _ _ _ _

/-- Inversion for the per-sample assembly loop. -/
theorem assembleAll_spec {α : Type} :
    ∀ (ps : List (SampleIn α × List ℤ)) (rs : List (OrderResult α)),
      assembleAll ps = Except.ok rs →
      rs.length = ps.length ∧
      ∀ k, k < ps.length →
        assembleRow (ps.getD k (dfltSample, [])).2 (ps.getD k (dfltSample, [])).1.bboxes
          (ps.getD k (dfltSample, [])).1.labels (ps.getD k (dfltSample, [])).1.img =
          Except.ok (rs.getD k dfltResult) := by
  intro ps
  induction ps with
  | nil =>
    intro rs h
    simp only [assembleAll] at h
    cases h
    exact ⟨rfl, fun k hk => by simp at hk⟩
  | cons p ps ih =>
    intro rs h
    simp only [assembleAll] at h
    cases h0 : assembleRow p.2 p.1.bboxes p.1.labels p.1.img with
    | error e => rw [h0] at h; cases h
    | ok r0 =>
      rw [h0] at h
      cases h1 : assembleAll ps with
      | error e => rw [h1] at h; cases h
      | ok rest =>
        rw [h1] at h
        cases h
        rcases ih rest h1 with ⟨hlen, hall⟩
        refine ⟨by simp [hlen], ?_⟩
        intro k hk
        cases k with
        | zero => simpa using h0
        | succ k =>
          simp only [List.getD_cons_succ]
          exact hall k (by simpa using hk)

/-- Master inversion for the batching pipeline: a successful run assembles
each sample, in order, from that sample's decoded predictions. -/
theorem runChunks_spec {α : Type} (padId boxHeight : ℕ) (oracle : BatchOracle α)
    (maxBoxes bs : ℕ) (hbs : 1 ≤ bs) :
    ∀ (samples : List (SampleIn α)) (rs : List (OrderResult α)),
      runBatches padId boxHeight oracle maxBoxes (chunkList bs samples) = Except.ok rs →
      rs.length = samples.length ∧
      ∀ k, k < samples.length →
        assembleRow ((samplePredsList padId boxHeight oracle maxBoxes bs samples).getD k [])
          ((samples.getD k dfltSample).bboxes) ((samples.getD k dfltSample).labels)
          ((samples.getD k dfltSample).img) = Except.ok (rs.getD k dfltResult) := by
  suffices H : ∀ (n : ℕ) (samples : List (SampleIn α)) (rs : List (OrderResult α)),
      samples.length = n →
      runBatches padId boxHeight oracle maxBoxes (chunkList bs samples) = Except.ok rs →
      rs.length = samples.length ∧
      ∀ k, k < samples.length →
        assembleRow ((samplePredsList padId boxHeight oracle maxBoxes bs samples).getD k [])
          ((samples.getD k dfltSample).bboxes) ((samples.getD k dfltSample).labels)
          ((samples.getD k dfltSample).img) = Except.ok (rs.getD k dfltResult) by
    exact fun samples rs h => H samples.length samples rs rfl h
  intro n
  induction n using Nat.strong_induction_on with
  | _ n ih =>
    intro samples rs hn h
    by_cases hne : samples = []
    · subst hne
      simp only [chunkList, chunkListGo, runBatches] at h
      cases h
      exact ⟨rfl, fun k hk => by simp at hk⟩
    · rw [chunkList_cons bs hbs samples hne] at h
      simp only [runBatches] at h
      cases h0 : processBatch padId boxHeight oracle maxBoxes (samples.take bs) with
      | error e => rw [h0] at h; cases h
      | ok rs0 =>
        rw [h0] at h
        cases h1 : runBatches padId boxHeight oracle maxBoxes
            (chunkList bs (samples.drop bs)) with
        | error e => rw [h1] at h; cases h
        | ok rs1 =>
          rw [h1] at h
          cases h
          have hpos : 0 < samples.length := List.length_pos.mpr hne
          have hdlen : (samples.drop bs).length < n := by
            rw [List.length_drop, ← hn]
            omega
          rcases ih (samples.drop bs).length hdlen (samples.drop bs) rs1 rfl h1 with
            ⟨hlen1, hall1⟩
          have hzip : (samples.take bs).length =
              (batchPredsOf padId boxHeight oracle maxBoxes (samples.take bs)).length :=
            (batchPredsOf_length _ _ _ _ _).symm
          have h0' : assembleAll ((samples.take bs).zip
              (batchPredsOf padId boxHeight oracle maxBoxes (samples.take bs))) =
              Except.ok rs0 := h0
          rcases assembleAll_spec _ _ h0' with ⟨hlen0, hall0⟩
          have hziplen : ((samples.take bs).zip
              (batchPredsOf padId boxHeight oracle maxBoxes (samples.take bs))).length =
              (samples.take bs).length := by
            rw [List.length_zip, ← hzip, Nat.min_self]
          have hsplit : samplePredsList padId boxHeight oracle maxBoxes bs samples =
              batchPredsOf padId boxHeight oracle maxBoxes (samples.take bs) ++
                samplePredsList padId boxHeight oracle maxBoxes bs (samples.drop bs) := by
            rw [samplePredsList, chunkList_cons bs hbs samples hne]
            simp [samplePredsList]
          have htklen : (samples.take bs).length = min bs samples.length := by
            simp
          constructor
          · rw [List.length_append, hlen0, hziplen, hlen1, htklen, List.length_drop]
            omega
          · intro k hk
            by_cases hkb : k < (samples.take bs).length
            · have hkz : k < ((samples.take bs).zip
                  (batchPredsOf padId boxHeight oracle maxBoxes (samples.take bs))).length := by
                omega
              have := hall0 k hkz
              have hzg : ((samples.take bs).zip
                  (batchPredsOf padId boxHeight oracle maxBoxes
                    (samples.take bs))).getD k (dfltSample, []) =
                  ((samples.take bs).getD k dfltSample,
                    (batchPredsOf padId boxHeight oracle maxBoxes
                      (samples.take bs)).getD k []) := by
                rw [List.getD_eq_getElem _ _ hkz, List.getElem_zip]
                rw [List.getD_eq_getElem _ _ hkb, List.getD_eq_getElem _ _ (by omega)]
              rw [hzg] at this
              have hsg : (samples.take bs).getD k dfltSample = samples.getD k dfltSample := by
                have hx := getD_append_lt (samples.take bs) (samples.drop bs) k hkb dfltSample
                rw [List.take_append_drop] at hx
                exact hx.symm
              have hpg : (samplePredsList padId boxHeight oracle maxBoxes bs
                  samples).getD k [] =
                  (batchPredsOf padId boxHeight oracle maxBoxes (samples.take bs)).getD k [] := by
                rw [hsplit, getD_append_lt _ _ _ (by omega)]
              have hrg : (rs0 ++ rs1).getD k dfltResult = rs0.getD k dfltResult := by
                rw [getD_append_lt _ _ _ (by omega)]
              rw [hsg, ← hpg] at this
              rw [hrg]
              exact this
            · push_neg at hkb
              have hk' : k - (samples.take bs).length < (samples.drop bs).length := by
                rw [htklen] at hkb ⊢
                rw [List.length_drop]
                omega
              have := hall1 (k - (samples.take bs).length) hk'
              have hsg : (samples.drop bs).getD (k - (samples.take bs).length) dfltSample =
                  samples.getD k dfltSample := by
                have hx := getD_append_ge (samples.take bs) (samples.drop bs) k hkb dfltSample
                rw [List.take_append_drop] at hx
                exact hx.symm
              have hpg : (samplePredsList padId boxHeight oracle maxBoxes bs
                  (samples.drop bs)).getD (k - (samples.take bs).length) [] =
                  (samplePredsList padId boxHeight oracle maxBoxes bs samples).getD k [] := by
                rw [hsplit, getD_append_ge _ _ _ (by omega)]
                congr 1
                rw [batchPredsOf_length]
              have hrg : rs1.getD (k - (samples.take bs).length) dfltResult =
                  (rs0 ++ rs1).getD k dfltResult := by
                rw [getD_append_ge _ _ _ (by omega), hlen0, hziplen]
              rw [hsg, hpg, hrg] at this
              exact this

theorem labelsOk_some {α : Type} {images : List Img} {bboxes : List (List α)}
    {ls : List (List String)} (h : labelsOk images bboxes (some ls) = true) :
    ls.length = images.length ∧
      ∀ p ∈ ls.zip bboxes, p.1.length = p.2.length := by
  simp only [labelsOk, Bool.and_eq_true, decide_eq_true_eq, List.all_eq_true] at h
  refine ⟨h.1, fun p hp => ?_⟩
  have := h.2 p hp
  simpa using this

theorem sampleTriples_length {α : Type} (images : List Img) (bboxes : List (List α))
    (labels : Option (List (List String))) (hib : images.length = bboxes.length)
    (hlab : labelsOk images bboxes labels = true) :
    (sampleTriples images bboxes labels).length = images.length := by
  cases labels with
  | none => simp [sampleTriples, hib]
  | some ls =>
    rcases labelsOk_some hlab with ⟨h1, -⟩
    simp [sampleTriples, hib, h1]

theorem sampleTriples_getD {α : Type} (images : List Img) (bboxes : List (List α))
    (labels : Option (List (List String))) (hib : images.length = bboxes.length)
    (hlab : labelsOk images bboxes labels = true) (k : ℕ) (hk : k < images.length) :
    (sampleTriples images bboxes labels).getD k dfltSample =
      SampleIn.mk (images.getD k (Img.mk 0 0)) (bboxes.getD k [])
        (labels.map (fun ls => ls.getD k [])) := by
  have hst : k < (sampleTriples images bboxes labels).length := by
    rw [sampleTriples_length images bboxes labels hib hlab]
    exact hk
  cases labels with
  | none =>
    simp only [sampleTriples] at hst ⊢
    rw [List.getD_eq_getElem _ _ hst, List.getElem_map, List.getElem_zip]
    have hkb : k < bboxes.length := hib ▸ hk
    rw [Option.map_none']
    congr 1
    · exact (List.getD_eq_getElem _ _ hk).symm
    · exact (List.getD_eq_getElem _ _ hkb).symm
  | some ls =>
    rcases labelsOk_some hlab with ⟨h1, -⟩
    simp only [sampleTriples] at hst ⊢
    rw [List.getD_eq_getElem _ _ hst, List.getElem_map, List.getElem_zip, List.getElem_zip]
    have hkb : k < bboxes.length := hib ▸ hk
    have hkl : k < ls.length := h1 ▸ hk
    rw [Option.map_some']
    congr 1
    · exact (List.getD_eq_getElem _ _ hk).symm
    · exact (List.getD_eq_getElem _ _ hkb).symm
    · rw [List.getD_eq_getElem _ _ hkl]

theorem sampleTriples_labels_length {α : Type} (images : List Img) (bboxes : List (List α))
    {ls : List (List String)} (hib : images.length = bboxes.length)
    (hlab : labelsOk images bboxes (some ls) = true) (k : ℕ) (hk : k < images.length) :
    (ls.getD k []).length = (bboxes.getD k []).length := by
  rcases labelsOk_some hlab with ⟨h1, h2⟩
  have hkl : k < ls.length := h1 ▸ hk
  have hkb : k < bboxes.length := hib ▸ hk
  have hmem : (ls.getD k [], bboxes.getD k []) ∈ ls.zip bboxes := by
    rw [List.getD_eq_getElem _ _ hkl, List.getD_eq_getElem _ _ hkb]
    have hkz : k < (ls.zip bboxes).length := by
      rw [List.length_zip]
      omega
    have hzz : (ls.zip bboxes).get ⟨k, hkz⟩ = (ls.getD k [], bboxes.getD k []) := by
      rw [List.get_eq_getElem, List.getElem_zip, List.getD_eq_getElem _ _ hkl,
        List.getD_eq_getElem _ _ hkb]
    rw [List.getD_eq_getElem _ _ hkl, List.getD_eq_getElem _ _ hkb] at hzz
    rw [← hzz]
    exact (ls.zip bboxes).get_mem _ _
  exact h2 _ hmem

/-- Inversion of the entry checks of `batch_ordering`. -/
theorem batchOrdering_ok_inv {α : Type} (padId boxHeight : ℕ) (oracle : BatchOracle α)
    (stg : Settings) (images : List Img) (bboxes : List (List α))
    (labels : Option (List (List String))) (rs : List (OrderResult α))
    (h : batchOrdering padId boxHeight oracle stg images bboxes labels = Except.ok rs) :
    images.length = bboxes.length ∧
    labelsOk images bboxes labels = true ∧
    1 ≤ get_batch_size stg ∧
    runBatches padId boxHeight oracle stg.ORDER_MAX_BOXES
      (chunkList (get_batch_size stg) (sampleTriples images bboxes labels)) =
        Except.ok rs := by
  by_cases h1 : images.length = bboxes.length
  · by_cases h2 : labelsOk images bboxes labels = true
    · by_cases h3 : get_batch_size stg = 0
      · rw [batchOrdering, if_pos h1, if_pos h2, if_pos h3] at h
        cases h
      · rw [batchOrdering, if_pos h1, if_pos h2, if_neg h3] at h
        exact ⟨h1, h2, by omega, h⟩
    · rw [batchOrdering, if_pos h1, if_neg h2] at h
      cases h
  · rw [batchOrdering, if_neg h1] at h
    cases h

/-- Inversion of the per-sample assembly: the post-loop assert and the
construction of the `OrderResult`. -/
theorem assembleRow_ok_inv {α : Type} (preds : List ℤ) (bxs : List α)
    (lblOpt : Option (List String)) (img : Img) (res : OrderResult α)
    (h : assembleRow preds bxs lblOpt img = Except.ok res) :
    preds.length = bxs.length ∧
    res.image_bbox = [0, 0, img.width, img.height] ∧
    (lblOpt = none →
      res.bboxes.map (fun ob => ob.bbox) = bxs ∧
      res.bboxes.map (fun ob => ob.position) = rank_elements preds) ∧
    (∀ lbl, lblOpt = some lbl → lbl.length = bxs.length →
      res.bboxes.map (fun ob => ob.bbox) =
        (structuralReorder bxs lbl (rank_elements preds)).1 ∧
      res.bboxes.map (fun ob => ob.position) =
        (structuralReorder bxs lbl (rank_elements preds)).2) := by
  by_cases hlen : preds.length = bxs.length
  · rw [assembleRow, if_pos hlen] at h
    have hrk : (rank_elements preds).length = bxs.length := by
      rw [rank_elements_length]
      exact hlen
    cases lblOpt with
    | none =>
      simp only at h
      cases h
      refine ⟨hlen, rfl, ?_, ?_⟩
      · intro hn2
        constructor
        · rw [List.map_map]
          exact List.map_fst_zip bxs (rank_elements preds) (by omega)
        · rw [List.map_map]
          exact List.map_snd_zip bxs (rank_elements preds) (by omega)
      · intro lbl hlbl
        cases hlbl
    | some lbl =>
      simp only at h
      cases h
      refine ⟨hlen, rfl, ?_, ?_⟩
      · intro hnone
        cases hnone
      · intro lbl2 hlbl hlbl2
        cases hlbl
        have hfst : (structuralReorder bxs lbl (rank_elements preds)).1.length = bxs.length := by
          rw [structuralReorder_fst bxs lbl (rank_elements preds) hlbl2 hrk]
        have hsnd : (structuralReorder bxs lbl (rank_elements preds)).2.length = bxs.length :=
          structuralReorder_snd_length bxs lbl (rank_elements preds) hlbl2 hrk
        constructor
        · rw [List.map_map]
          exact List.map_fst_zip _ _ (by omega)
        · rw [List.map_map]
          exact List.map_snd_zip _ _ (by omega)
  · rw [assembleRow, if_neg hlen] at h
    cases h

/-! ## Claim C2 -/

/-- C2 — For every sample that reaches Result Assembly (i.e. whenever
`batch_ordering` returns successfully), the multiset of final `position`
values of its `OrderBox` entries is exactly `{0, …, N-1}` for `N` that
sample's box count — with or without labels. -/
theorem claim_C2 {α : Type} (padId boxHeight : ℕ) (oracle : BatchOracle α) (stg : Settings)
    (images : List Img) (bboxes : List (List α)) (labels : Option (List (List String)))
    (rs : List (OrderResult α))
    (h : batchOrdering padId boxHeight oracle stg images bboxes labels = Except.ok rs) :
    rs.length = images.length ∧
    ∀ k, k < rs.length →
      (rs.getD k dfltResult).bboxes.length = (bboxes.getD k []).length ∧
      List.Perm ((rs.getD k dfltResult).bboxes.map (fun ob => ob.position))
        (List.range ((bboxes.getD k []).length)) := by
  rcases batchOrdering_ok_inv padId boxHeight oracle stg images bboxes labels rs h with
    ⟨hib, hlab, hbs, hrun⟩
  rcases runChunks_spec padId boxHeight oracle stg.ORDER_MAX_BOXES (get_batch_size stg) hbs
    (sampleTriples images bboxes labels) rs hrun with ⟨hlen, hall⟩
  have hstl := sampleTriples_length images bboxes labels hib hlab
  have hrslen : rs.length = images.length := by rw [hlen, hstl]
  refine ⟨hrslen, ?_⟩
  intro k hk
  have hk1 : k < images.length := by omega
  have hk2 : k < (sampleTriples images bboxes labels).length := by omega
  have hrow := hall k hk2
  rw [sampleTriples_getD images bboxes labels hib hlab k hk1] at hrow
  dsimp only at hrow
  rcases assembleRow_ok_inv _ _ _ _ _ hrow with ⟨hplen, hbbx, hnone, hsome⟩
  have hperm : List.Perm ((rs.getD k dfltResult).bboxes.map (fun ob => ob.position))
      (List.range ((bboxes.getD k []).length)) := by
    cases hlb : labels with
    | none =>
      rcases hnone (by rw [hlb]; rfl) with ⟨-, hpos⟩
      rw [hpos]
      have := rank_elements_perm_range ((samplePredsList padId boxHeight oracle
        stg.ORDER_MAX_BOXES (get_batch_size stg)
          (sampleTriples images bboxes labels)).getD k [])
      rwa [hplen] at this
    | some ls =>
      have hlbl2 : (ls.getD k []).length = (bboxes.getD k []).length := by
        rw [hlb] at hlab
        exact sampleTriples_labels_length images bboxes hib hlab k hk1
      rcases hsome (ls.getD k []) (by rw [hlb]; rfl) hlbl2 with ⟨-, hpos⟩
      rw [hpos]
      exact structuralReorder_snd_perm _ _ _ hlbl2 (by rw [rank_elements_length, hplen])
  refine ⟨?_, hperm⟩
  have := hperm.length_eq
  rw [List.length_map] at this
  rw [this, List.length_range]

/-- Witness for C2: a concrete successful two-box run. -/
theorem claim_C2_witness :
    ([OrderResult.mk [OrderBox.mk 7 1, OrderBox.mk 8 0] [0, 0, 3, 4]] :
        List (OrderResult ℕ)).length = ([Img.mk 3 4] : List Img).length ∧
    ∀ k, k < ([OrderResult.mk [OrderBox.mk 7 1, OrderBox.mk 8 0] [0, 0, 3, 4]] :
        List (OrderResult ℕ)).length →
      (([OrderResult.mk [OrderBox.mk 7 1, OrderBox.mk 8 0] [0, 0, 3, 4]] :
          List (OrderResult ℕ)).getD k dfltResult).bboxes.length =
        (([[7, 8]] : List (List ℕ)).getD k []).length ∧
      List.Perm ((([OrderResult.mk [OrderBox.mk 7 1, OrderBox.mk 8 0] [0, 0, 3, 4]] :
          List (OrderResult ℕ)).getD k dfltResult).bboxes.map (fun ob => ob.position))
        (List.range ((([[7, 8]] : List (List ℕ)).getD k []).length)) :=
  claim_C2 0 1 oracleW2 (Settings.mk (some 4) "cpu" 10) [Img.mk 3 4] [[7, 8]] none
    [OrderResult.mk [OrderBox.mk 7 1, OrderBox.mk 8 0] [0, 0, 3, 4]] (by rfl)

/-! ## Claim C9 -/

/-- C9 — When labels are omitted and `batch_ordering` succeeds, each
sample's final ranks are exactly `rank_elements` of its decoded predictions,
its box array keeps the submitted order, and its `image_bbox` is
`[0, 0, width, height]` of the original image. -/
theorem claim_C9 {α : Type} (padId boxHeight : ℕ) (oracle : BatchOracle α) (stg : Settings)
    (images : List Img) (bboxes : List (List α)) (rs : List (OrderResult α))
    (h : batchOrdering padId boxHeight oracle stg images bboxes none = Except.ok rs) :
    rs.length = images.length ∧
    ∀ k, k < rs.length →
      (rs.getD k dfltResult).bboxes.map (fun ob => ob.bbox) = bboxes.getD k [] ∧
      (rs.getD k dfltResult).bboxes.map (fun ob => ob.position) =
        rank_elements ((samplePredsList padId boxHeight oracle stg.ORDER_MAX_BOXES
          (get_batch_size stg) (sampleTriples images bboxes none)).getD k []) ∧
      (rs.getD k dfltResult).image_bbox =
        [0, 0, (images.getD k (Img.mk 0 0)).width, (images.getD k (Img.mk 0 0)).height] := by
  rcases batchOrdering_ok_inv padId boxHeight oracle stg images bboxes none rs h with
    ⟨hib, hlab, hbs, hrun⟩
  rcases runChunks_spec padId boxHeight oracle stg.ORDER_MAX_BOXES (get_batch_size stg) hbs
    (sampleTriples images bboxes none) rs hrun with ⟨hlen, hall⟩
  have hstl := sampleTriples_length images bboxes none hib hlab
  have hrslen : rs.length = images.length := by rw [hlen, hstl]
  refine ⟨hrslen, ?_⟩
  intro k hk
  have hk1 : k < images.length := by omega
  have hk2 : k < (sampleTriples images bboxes none).length := by omega
  have hrow := hall k hk2
  rw [sampleTriples_getD images bboxes none hib hlab k hk1] at hrow
  dsimp only at hrow
  rcases assembleRow_ok_inv _ _ _ _ _ hrow with ⟨hplen, hbbx, hnone, -⟩
  rcases hnone rfl with ⟨hbx, hpos⟩
  exact ⟨hbx, hpos, hbbx⟩

/-- Witness for C9: the same kind of concrete two-box run, no labels. -/
theorem claim_C9_witness :
    ([OrderResult.mk [OrderBox.mk 17 1, OrderBox.mk 18 0] [0, 0, 30, 40]] :
        List (OrderResult ℕ)).length = ([Img.mk 30 40] : List Img).length ∧
    ∀ k, k < ([OrderResult.mk [OrderBox.mk 17 1, OrderBox.mk 18 0] [0, 0, 30, 40]] :
        List (OrderResult ℕ)).length →
      (([OrderResult.mk [OrderBox.mk 17 1, OrderBox.mk 18 0] [0, 0, 30, 40]] :
          List (OrderResult ℕ)).getD k dfltResult).bboxes.map (fun ob => ob.bbox) =
        ([[17, 18]] : List (List ℕ)).getD k [] ∧
      (([OrderResult.mk [OrderBox.mk 17 1, OrderBox.mk 18 0] [0, 0, 30, 40]] :
          List (OrderResult ℕ)).getD k dfltResult).bboxes.map (fun ob => ob.position) =
        rank_elements ((samplePredsList 0 1 oracleW2 10 4
          (sampleTriples [Img.mk 30 40] [[17, 18]] none)).getD k []) ∧
      (([OrderResult.mk [OrderBox.mk 17 1, OrderBox.mk 18 0] [0, 0, 30, 40]] :
          List (OrderResult ℕ)).getD k dfltResult).image_bbox =
        [0, 0, (([Img.mk 30 40] : List Img).getD k (Img.mk 0 0)).width,
          (([Img.mk 30 40] : List Img).getD k (Img.mk 0 0)).height] :=
  claim_C9 0 1 oracleW2 (Settings.mk (some 4) "cpu" 10) [Img.mk 30 40] [[17, 18]]
    [OrderResult.mk [OrderBox.mk 17 1, OrderBox.mk 18 0] [0, 0, 30, 40]] (by rfl)

/-! ## Claim C4 -/

/-- C4 counterexample — with `oracleC4` and batch size 1, the two-sample run
aborts with the mismatch assertion of line 106 and the caller receives only
the error: the `OrderResult` of the first batch — which on its own completes
successfully, as the second conjunct shows — is discarded rather than
delivered. -/
theorem claim_C4_counterexample :
    batchOrdering 0 1 oracleC4 (Settings.mk (some 1) "cpu" 10) [Img.mk 5 6, Img.mk 7 8]
        [[7], [8, 9]] none = Except.error ("Mismatch between logits and bboxes.") ∧
    batchOrdering 0 1 oracleC4 (Settings.mk (some 1) "cpu" 10) [Img.mk 5 6] [[7]] none =
      Except.ok [OrderResult.mk [OrderBox.mk 7 0] [0, 0, 5, 6]] := by
  constructor
  · rfl
  · rfl

/-- C4 (amended) — a sample whose emitted predicted-index count differs from
its box count makes the whole call fail with an error (never silently
truncated or padded): on success every sample's decoded count equals its box
count, and any count mismatch forces the `Except.error` outcome, which
carries no `OrderResult`s at all — the results of batches completed before
the failing batch are discarded along with everything else. -/
theorem claim_C4_amended {α : Type} (padId boxHeight : ℕ) (oracle : BatchOracle α)
    (stg : Settings) (images : List Img) (bboxes : List (List α))
    (labels : Option (List (List String))) :
    (∀ rs, batchOrdering padId boxHeight oracle stg images bboxes labels = Except.ok rs →
      ∀ k, k < images.length →
        ((samplePredsList padId boxHeight oracle stg.ORDER_MAX_BOXES (get_batch_size stg)
          (sampleTriples images bboxes labels)).getD k []).length =
          (bboxes.getD k []).length) ∧
    ((∃ k, k < images.length ∧
        ((samplePredsList padId boxHeight oracle stg.ORDER_MAX_BOXES (get_batch_size stg)
          (sampleTriples images bboxes labels)).getD k []).length ≠
          (bboxes.getD k []).length) →
      ∃ msg, batchOrdering padId boxHeight oracle stg images bboxes labels =
        Except.error msg) := by
  have hmain : ∀ rs, batchOrdering padId boxHeight oracle stg images bboxes labels =
      Except.ok rs →
      ∀ k, k < images.length →
        ((samplePredsList padId boxHeight oracle stg.ORDER_MAX_BOXES (get_batch_size stg)
          (sampleTriples images bboxes labels)).getD k []).length =
          (bboxes.getD k []).length := by
    intro rs h k hk
    rcases batchOrdering_ok_inv padId boxHeight oracle stg images bboxes labels rs h with
      ⟨hib, hlab, hbs, hrun⟩
    rcases runChunks_spec padId boxHeight oracle stg.ORDER_MAX_BOXES (get_batch_size stg) hbs
      (sampleTriples images bboxes labels) rs hrun with ⟨-, hall⟩
    have hk2 : k < (sampleTriples images bboxes labels).length := by
      rw [sampleTriples_length images bboxes labels hib hlab]
      exact hk
    have hrow := hall k hk2
    rw [sampleTriples_getD images bboxes labels hib hlab k hk] at hrow
    dsimp only at hrow
    exact (assembleRow_ok_inv _ _ _ _ _ hrow).1
  refine ⟨hmain, ?_⟩
  intro hex
  cases hres : batchOrdering padId boxHeight oracle stg images bboxes labels with
  | error e => exact ⟨e, rfl⟩
  | ok rs =>
    exfalso
    rcases hex with ⟨k, hk, hne⟩
    exact hne (hmain rs hres k hk)

/-- Witness for the amended C4 at the concrete successful singleton run. -/
theorem claim_C4_amended_witness :
    ((samplePredsList 0 1 oracleC4 10 1
      (sampleTriples [Img.mk 5 6] [[7]] none)).getD 0 []).length =
      (([[7]] : List (List ℕ)).getD 0 []).length :=
  (claim_C4_amended 0 1 oracleC4 (Settings.mk (some 1) "cpu" 10) [Img.mk 5 6] [[7]] none).1
    [OrderResult.mk [OrderBox.mk 7 0] [0, 0, 5, 6]] (by rfl) 0 (by decide)

/-! ## Claim C8 -/

/-- `batchStep` on two lists mapped from a common list acts pointwise. -/
theorem batchStep_map {β : Type} (padId boxHeight : ℕ) (l : List β)
    (u : β → List ℤ) (v : β → SampleSt) :
    batchStep padId boxHeight (l.map u) (l.map v) =
      l.map (fun x => sampleStep padId boxHeight (u x) (v x)) := by
  induction l with
  | nil => rfl
  | cons a t ih => simp [batchStep, ih]

/-- The fed history always grows by exactly the arg-max token. -/
theorem soloStep_fed (padId boxHeight : ℕ) (g : List ℕ → List ℤ) (st : SampleSt) :
    (soloStep padId boxHeight g st).fed = st.fed ++ [argmaxIdx (g st.fed)] := by
  rw [soloStep, sampleStep]
  by_cases h : argmaxIdx (g st.fed) = padId <;> simp [h]

/-- For a factored oracle, `k` batch steps from fresh states are exactly the
per-sample solo steps run in parallel: no sample's state ever depends on its
batch mates. -/
theorem stepOnce_iterate_factored {α : Type} (padId boxHeight : ℕ) (oracle : BatchOracle α)
    (f : Img → List α → List ℕ → List ℤ) (hfac : OracleFactors oracle f)
    (batch : List (SampleIn α)) (k : ℕ) :
    (stepOnce padId boxHeight
        (oracle (batch.map (fun s => s.img)) (batch.map (fun s => s.bboxes))))^[k]
      (List.replicate batch.length initState) =
      batch.map (fun s => (soloStep padId boxHeight (f s.img s.bboxes))^[k] initState) := by
  induction k with
  | zero =>
    simp only [Function.iterate_zero, id_eq]
    exact (List.map_const' batch initState).symm
  | succ k ih =>
    rw [Function.iterate_succ_apply', ih, stepOnce, List.map_map, hfac, List.zip_map',
      List.zipWith_map, List.zipWith_same, batchStep_map]
    simp only [Function.iterate_succ_apply', soloStep, Function.comp]

/-- Under an absorbing logits function, whenever a solo run is done its
current history already arg-maxes to the terminator. -/
theorem solo_done_argmax (padId boxHeight : ℕ) (g : List ℕ → List ℤ)
    (habs : ∀ h t, argmaxIdx (g h) = padId → argmaxIdx (g (h ++ t)) = padId) :
    ∀ k, ((soloStep padId boxHeight g)^[k] initState).done = true →
      argmaxIdx (g (((soloStep padId boxHeight g)^[k] initState).fed)) = padId := by
  intro k
  induction k with
  | zero =>
    intro h
    simp [initState] at h
  | succ k ih =>
    intro hdone
    rw [Function.iterate_succ_apply'] at hdone ⊢
    by_cases hp : argmaxIdx (g ((soloStep padId boxHeight g)^[k] initState).fed) = padId
    · rw [soloStep_fed]
      exact habs _ _ hp
    · have hdone2 : (soloStep padId boxHeight g ((soloStep padId boxHeight g)^[k]
          initState)).done = ((soloStep padId boxHeight g)^[k] initState).done := by
        rw [soloStep, sampleStep]
        simp [hp]
      rw [hdone2] at hdone
      exact absurd (ih hdone) hp

/-- Under an absorbing logits function, once a solo run is done its
predictions never change and it stays done. -/
theorem solo_preds_stable (padId boxHeight : ℕ) (g : List ℕ → List ℤ)
    (habs : ∀ h t, argmaxIdx (g h) = padId → argmaxIdx (g (h ++ t)) = padId)
    (k : ℕ) (hdone : ((soloStep padId boxHeight g)^[k] initState).done = true) :
    ∀ m, ((soloStep padId boxHeight g)^[k + m] initState).preds =
        ((soloStep padId boxHeight g)^[k] initState).preds ∧
      ((soloStep padId boxHeight g)^[k + m] initState).done = true := by
  intro m
  induction m with
  | zero => exact ⟨rfl, hdone⟩
  | succ m ih =>
    have hpad := solo_done_argmax padId boxHeight g habs (k + m) ih.2
    have hm : k + (m + 1) = (k + m) + 1 := by omega
    rw [hm, Function.iterate_succ_apply']
    constructor
    · rw [soloStep, sampleStep]
      simp only [hpad, if_pos]
      exact ih.1
    · rw [soloStep, sampleStep]
      simp [hpad]

/-- For a factored, absorbing oracle, the decoded `batch_predictions` of a
batch are exactly each sample's solo predictions at the full
`ORDER_MAX_BOXES` horizon — independent of who shares the batch. -/
theorem batchPreds_factored {α : Type} (padId boxHeight : ℕ) (oracle : BatchOracle α)
    (f : Img → List α → List ℕ → List ℤ) (hfac : OracleFactors oracle f)
    (habs : PadAbsorbing padId f) (maxBoxes : ℕ) (batch : List (SampleIn α)) :
    batchPredsOf padId boxHeight oracle maxBoxes batch =
      batch.map (fun s => soloPreds padId boxHeight (f s.img s.bboxes) maxBoxes) := by
  rw [batchPredsOf, decodeBatchPreds]
  obtain ⟨hle, heq, -, hstop⟩ := decodeLoop_spec padId boxHeight
    (oracle (batch.map (fun s => s.img)) (batch.map (fun s => s.bboxes))) maxBoxes
    (List.replicate batch.length initState)
  rw [heq, stepOnce_iterate_factored padId boxHeight oracle f hfac batch, List.map_map]
  rcases hstop with hK | hall
  · rw [hK]
    rfl
  · rw [stepOnce_iterate_factored padId boxHeight oracle f hfac batch] at hall
    apply List.map_congr_left
    intro s hs
    have hdone : ((soloStep padId boxHeight (f s.img s.bboxes))^[(decodeLoopAux padId
        boxHeight (oracle (batch.map (fun t => t.img)) (batch.map (fun t => t.bboxes)))
        maxBoxes (List.replicate batch.length initState)).2] initState).done = true := by
      rw [List.all_eq_true] at hall
      exact hall _ (List.mem_map_of_mem _ hs)
    have hst := solo_preds_stable padId boxHeight (f s.img s.bboxes)
      (fun h t => habs s.img s.bboxes h t) _ hdone
      (maxBoxes - (decodeLoopAux padId boxHeight (oracle (batch.map (fun t => t.img))
        (batch.map (fun t => t.bboxes))) maxBoxes (List.replicate batch.length
        initState)).2)
    have hadd : (decodeLoopAux padId boxHeight (oracle (batch.map (fun t => t.img))
        (batch.map (fun t => t.bboxes))) maxBoxes (List.replicate batch.length
        initState)).2 + (maxBoxes - (decodeLoopAux padId boxHeight (oracle
        (batch.map (fun t => t.img)) (batch.map (fun t => t.bboxes))) maxBoxes
        (List.replicate batch.length initState)).2) = maxBoxes := by omega
    rw [hadd] at hst
    rw [Function.comp_apply, soloPreds]
    exact hst.1.symm

/-- For a factored, absorbing oracle, processing one batch equals the
batching-free reference run on the same samples. -/
theorem processBatch_canonical {α : Type} (padId boxHeight : ℕ) (oracle : BatchOracle α)
    (f : Img → List α → List ℕ → List ℤ) (hfac : OracleFactors oracle f)
    (habs : PadAbsorbing padId f) (maxBoxes : ℕ) (batch : List (SampleIn α)) :
    processBatch padId boxHeight oracle maxBoxes batch =
      canonicalRun padId boxHeight f maxBoxes batch := by
  have hp : processBatch padId boxHeight oracle maxBoxes batch =
      assembleAll (batch.zip (batchPredsOf padId boxHeight oracle maxBoxes batch)) := rfl
  rw [hp, batchPreds_factored padId boxHeight oracle f hfac habs, canonicalRun]
  congr 1
  have hz := List.zip_map' (fun s : SampleIn α => s)
    (fun s => soloPreds padId boxHeight (f s.img s.bboxes) maxBoxes) batch
  simpa using hz

/-- `assembleAll` over a concatenation: the first error wins, otherwise the
result lists concatenate. -/
theorem assembleAll_append {α : Type} (l1 l2 : List (SampleIn α × List ℤ)) :
    assembleAll (l1 ++ l2) =
      match assembleAll l1 with
      | Except.error e => Except.error e
      | Except.ok r1 =>
        match assembleAll l2 with
        | Except.error e => Except.error e
        | Except.ok r2 => Except.ok (r1 ++ r2) := by
  induction l1 with
  | nil =>
    simp only [List.nil_append, assembleAll]
    cases assembleAll l2 with
    | error e => rfl
    | ok r2 => simp
  | cons p t ih =>
    simp only [List.cons_append, assembleAll]
    cases assembleRow p.2 p.1.bboxes p.1.labels p.1.img with
    | error e => rfl
    | ok r =>
      simp only [List.append_eq]
      rw [ih]
      cases assembleAll t with
      | error e => rfl
      | ok r1 =>
        cases assembleAll l2 with
        | error e => rfl
        | ok r2 => simp

/-- For a factored, absorbing oracle, the whole chunked batching loop equals
the batching-free reference run for every batch size at least 1. -/
theorem runBatches_chunk_canonical {α : Type} (padId boxHeight : ℕ) (oracle : BatchOracle α)
    (f : Img → List α → List ℕ → List ℤ) (hfac : OracleFactors oracle f)
    (habs : PadAbsorbing padId f) (maxBoxes bs : ℕ) (hbs : 1 ≤ bs)
    (samples : List (SampleIn α)) :
    runBatches padId boxHeight oracle maxBoxes (chunkList bs samples) =
      canonicalRun padId boxHeight f maxBoxes samples := by
  suffices H : ∀ (n : ℕ) (samples : List (SampleIn α)), samples.length = n →
      runBatches padId boxHeight oracle maxBoxes (chunkList bs samples) =
        canonicalRun padId boxHeight f maxBoxes samples by
    exact H samples.length samples rfl
  intro n
  induction n using Nat.strong_induction_on with
  | _ n ih =>
    intro samples hn
    by_cases hne : samples = []
    · subst hne
      rfl
    · rw [chunkList_cons bs hbs samples hne]
      have hpos : 0 < samples.length := List.length_pos.mpr hne
      have hdrop : (samples.drop bs).length < n := by
        rw [List.length_drop]
        omega
      have hstep : runBatches padId boxHeight oracle maxBoxes
          (samples.take bs :: chunkList bs (samples.drop bs)) =
          match processBatch padId boxHeight oracle maxBoxes (samples.take bs) with
          | Except.error e => Except.error e
          | Except.ok rs =>
            match runBatches padId boxHeight oracle maxBoxes
                (chunkList bs (samples.drop bs)) with
            | Except.error e => Except.error e
            | Except.ok rest => Except.ok (rs ++ rest) := rfl
      rw [hstep, processBatch_canonical padId boxHeight oracle f hfac habs,
        ih _ hdrop (samples.drop bs) rfl]
      have hsplit : canonicalRun padId boxHeight f maxBoxes samples =
          match canonicalRun padId boxHeight f maxBoxes (samples.take bs) with
          | Except.error e => Except.error e
          | Except.ok r1 =>
            match canonicalRun padId boxHeight f maxBoxes (samples.drop bs) with
            | Except.error e => Except.error e
            | Except.ok r2 => Except.ok (r1 ++ r2) := by
        conv_lhs => rw [← List.take_append_drop bs samples]
        rw [canonicalRun, List.map_append, assembleAll_append]
        simp only [canonicalRun]
      rw [hsplit]

/-- C8 counterexample — `orc8` is per-sample by construction (first conjunct:
it factors through `f8`), yet splitting the same two samples into batches of
size 1 versus one batch of size 2 changes the outcome: with size 1 both
samples succeed, with size 2 the call fails.  In the joint batch the 1-box
sample finishes at step 2 but, lacking a done-guard, is stepped again while
the 2-box sample is still active, its predictions grow past its box count,
and the line-106 assertion fires. -/
theorem claim_C8_counterexample :
    (∀ imgs bbs hists, orc8 imgs bbs hists =
      List.zipWith (fun p h => f8 p.1 p.2 h) (imgs.zip bbs) hists) ∧
    batchOrdering 0 1 orc8 (Settings.mk (some 1) "cpu" 10)
        [Img.mk 100 200, Img.mk 30 40] [[77], [88, 99]] none =
      Except.ok [OrderResult.mk [OrderBox.mk 77 0] [0, 0, 100, 200],
        OrderResult.mk [OrderBox.mk 88 0, OrderBox.mk 99 1] [0, 0, 30, 40]] ∧
    batchOrdering 0 1 orc8 (Settings.mk (some 2) "cpu" 10)
        [Img.mk 100 200, Img.mk 30 40] [[77], [88, 99]] none =
      Except.error ("Mismatch between logits and bboxes.") :=
  ⟨fun _ _ _ => rfl, rfl, rfl⟩

/-- C8 (amended) — batching is transparent under one extra premise beyond the
claim's per-sample-oracle one: the per-sample logits function must be
pad-absorbing (once a sample's history asks for the terminator, every
extension still does).  Then for any two settings with the same
`ORDER_MAX_BOXES` and positive batch sizes, `batch_ordering` returns the
same result, because each chunked run equals the batching-free per-sample
reference run.  Without absorption the counterexample applies. -/
theorem claim_C8_amended {α : Type} (padId boxHeight : ℕ) (oracle : BatchOracle α)
    (f : Img → List α → List ℕ → List ℤ) (hfac : OracleFactors oracle f)
    (habs : PadAbsorbing padId f) (stg1 stg2 : Settings)
    (hmax : stg1.ORDER_MAX_BOXES = stg2.ORDER_MAX_BOXES)
    (hbs1 : 1 ≤ get_batch_size stg1) (hbs2 : 1 ≤ get_batch_size stg2)
    (images : List Img) (bboxes : List (List α))
    (labels : Option (List (List String))) :
    batchOrdering padId boxHeight oracle stg1 images bboxes labels =
      batchOrdering padId boxHeight oracle stg2 images bboxes labels := by
  rw [batchOrdering, batchOrdering]
  by_cases h1 : images.length = bboxes.length
  · rw [if_pos h1, if_pos h1]
    by_cases h2 : labelsOk images bboxes labels = true
    · rw [if_pos h2, if_pos h2]
      have hz1 : ¬ get_batch_size stg1 = 0 := by omega
      have hz2 : ¬ get_batch_size stg2 = 0 := by omega
      rw [if_neg hz1, if_neg hz2,
        runBatches_chunk_canonical padId boxHeight oracle f hfac habs
          stg1.ORDER_MAX_BOXES (get_batch_size stg1) hbs1,
        runBatches_chunk_canonical padId boxHeight oracle f hfac habs
          stg2.ORDER_MAX_BOXES (get_batch_size stg2) hbs2, hmax]
    · rw [if_neg h2, if_neg h2]
  · rw [if_neg h1, if_neg h1]

/-- Witness for the amended C8: the always-terminating factored oracle `orc0`
gives the same (successful) result for two samples at batch size 1 and at
batch size 2. -/
theorem claim_C8_amended_witness :
    batchOrdering 0 1 orc0 (Settings.mk (some 1) "cpu" 10)
        [Img.mk 1 2, Img.mk 3 4] [[], []] none =
      batchOrdering 0 1 orc0 (Settings.mk (some 2) "cpu" 10)
        [Img.mk 1 2, Img.mk 3 4] [[], []] none :=
  claim_C8_amended 0 1 orc0 f0 (fun _ _ _ => rfl) (fun _ _ _ _ _ => rfl)
    (Settings.mk (some 1) "cpu" 10) (Settings.mk (some 2) "cpu" 10) rfl
    (by decide) (by decide) [Img.mk 1 2, Img.mk 3 4] [[], []] none

end Surya
